import Mathlib

/-!
Shallow embedding of the `wasset` crate (asset embedding in WASM modules).

Encode side: `src/encode/mod.rs` (`encode_asset_folder`, `load_assets_in_folder`).
Decode side: `src/parse.rs` (`WassetParser::parse`, `collect_manifests`,
`parse_module_custom_section`, `load`, `load_raw`, `load_by_range`, `strip_module`).
Shared model: `src/lib.rs` (`WassetId`, `WassetManifest`, `WassetError`).

Bytes are modelled as `Nat` (each intended `< 256`), byte buffers as `List Nat`,
128-bit IDs as `Nat` (`< 2^128`), and `u32` values as `Nat` with explicit
`% 2^32` at every point where the Rust code performs an `as u32` cast or
release-mode wrapping `u32` arithmetic.  The external structured serializer
(`rmp_serde`) is modelled by a concrete executable codec for manifests and by
explicit `ser`/`deser` parameters for asset records, matching the spec's
treatment of the serializer as an external collaborator specified at its
interface.  The WASM binary grammar is modelled at the core-module level:
a fixed 8-byte header followed by sections `tag byte, LEB128 size, contents`,
which is the grammar the scanner and stripper traverse.
-/

namespace Wasset

/-- Models `WassetError` from `src/lib.rs`: the two error classes. -/
inductive WassetError where
  | serialize (msg : String)
  | deserialize (msg : String)
deriving DecidableEq, Repr

deriving instance DecidableEq for Except

/-- Models `Range<u32>` (the manifest byte range).  `stop` stands for the
Rust field `end`, which is a Lean keyword. -/
structure Rng where
  start : Nat
  stop : Nat
deriving DecidableEq, Repr

/-- Models the Rust `as u32` cast / wrapping `u32` arithmetic: reduction mod `2^32`. -/
def toU32 (n : Nat) : Nat := n % 2 ^ 32

/-- Association-list lookup, modelling `FxHashMap::get`. -/
def lookupA {α β : Type} [DecidableEq α] (k : α) : List (α × β) → Option β
  | [] => none
  | (k', v) :: t => if k = k' then some v else lookupA k t

/-- Association-list insert, modelling `FxHashMap::insert`: an existing binding
is overwritten in place, otherwise the new binding is appended. -/
def insertA {α β : Type} [DecidableEq α] (k : α) (v : β) : List (α × β) → List (α × β)
  | [] => [(k, v)]
  | (k', v') :: t => if k = k' then (k, v) :: t else (k', v') :: insertA k v t

/-- Canonical unsigned LEB128 encoding, bounded recursion (`u32` values need at
most 5 bytes; the fuel of 5 covers every value below `2^35`, and every length
the model encodes has been reduced mod `2^32` first). -/
def lebEncodeGo : Nat → Nat → List Nat
  | 0, n => [n % 128]
  | fuel + 1, n => if n < 128 then [n] else (n % 128 + 128) :: lebEncodeGo fuel (n / 128)

/-- Canonical unsigned LEB128 encoding of a `u32` value, as produced by
`wasm_encoder` for section sizes and name lengths. -/
def lebEncode (n : Nat) : List Nat := lebEncodeGo 5 n

/-- Unsigned LEB128 decoding, at most `budget` bytes; returns the value and the
number of bytes consumed. -/
def lebDecodeGo : Nat → List Nat → Option (Nat × Nat)
  | 0, _ => none
  | _ + 1, [] => none
  | budget + 1, b :: t =>
    let lo := b % 256
    if lo < 128 then some (lo, 1)
    else
      match lebDecodeGo budget t with
      | some (v, c) => some (lo % 128 + 128 * v, c + 1)
      | none => none

/-- Models `wasmparser`'s `u32` LEB128 reader: at most 5 bytes, value below
`2^32`, non-canonical encodings accepted. -/
def lebDecode (bs : List Nat) : Option (Nat × Nat) :=
  match lebDecodeGo 5 bs with
  | some (v, c) => if v < 2 ^ 32 then some (v, c) else none
  | none => none

/-- Little-endian byte string of a value, fixed width. -/
def bytesLE : Nat → Nat → List Nat
  | 0, _ => []
  | w + 1, v => v % 256 :: bytesLE w (v / 256)

/-- Value of a little-endian byte string (each byte taken mod 256). -/
def natLE : List Nat → Nat
  | [] => 0
  | b :: t => b % 256 + 256 * natLE t

/-- Models the structured (rmp) serialization of a `WassetManifest`: an entry
count followed by 24-byte entries (16-byte ID, two 4-byte `u32` range ends).
This is the model of the external serializer's manifest wire format: compact,
self-delimiting, rejecting empty input, with structured round-trip. -/
def manifestSer (m : List (Nat × Rng)) : List Nat :=
  lebEncode m.length ++ m.flatMap fun p => bytesLE 16 p.1 ++ bytesLE 4 p.2.start ++ bytesLE 4 p.2.stop

/-- Reads `n` manifest entries, requiring the input to be consumed exactly. -/
def readEntries : Nat → List Nat → Except WassetError (List (Nat × Rng))
  | 0, [] => .ok []
  | 0, _ :: _ => .error (.deserialize "trailing manifest bytes")
  | n + 1, bs =>
    if bs.length < 24 then .error (.deserialize "unexpected end of manifest bytes")
    else
      (readEntries n (bs.drop 24)).map
        ((natLE (bs.take 16), ⟨natLE ((bs.drop 16).take 4), natLE ((bs.drop 20).take 4)⟩) :: ·)

/-- Models the structured (rmp) deserialization of a `WassetManifest`; fails on
empty or malformed input, inverse of `manifestSer` on well-formed manifests. -/
def manifestDeser (bs : List Nat) : Except WassetError (List (Nat × Rng)) :=
  match lebDecode bs with
  | none => .error (.deserialize "invalid manifest header")
  | some (n, k) => readEntries n (bs.drop k)

/-- Lower-case hex digit character code for a digit below 16, as in the
canonical `Uuid` display form. -/
def hexChar (d : Nat) : Nat := if d < 10 then 48 + d else 87 + d

/-- Hex digit value of a character code, accepting both cases, as in
`Uuid::try_parse`. -/
def hexVal (c : Nat) : Option Nat :=
  if 48 ≤ c ∧ c ≤ 57 then some (c - 48)
  else if 97 ≤ c ∧ c ≤ 102 then some (c - 87)
  else if 65 ≤ c ∧ c ≤ 70 then some (c - 55)
  else none

/-- Fixed-width big-endian hex digit string of a value. -/
def toHex : Nat → Nat → List Nat
  | 0, _ => []
  | k + 1, v => toHex k (v / 16) ++ [hexChar (v % 16)]

/-- Accumulating hex string reader. -/
def fromHexAux : List Nat → Nat → Option Nat
  | [], acc => some acc
  | c :: t, acc =>
    match hexVal c with
    | some d => fromHexAux t (16 * acc + d)
    | none => none

/-- Models the canonical 36-character hyphenated `Uuid` display form
(`format!` on a `Uuid`), used by the macro when naming the two custom
sections. -/
def uuidStr (u : Nat) : List Nat :=
  let d := toHex 32 u
  d.take 8 ++ 45 :: (d.drop 8).take 4 ++ 45 :: (d.drop 12).take 4 ++
    45 :: (d.drop 16).take 4 ++ 45 :: d.drop 20

/-- Models `Uuid::try_parse` on the hyphenated form: 36 characters with
hyphens at positions 8, 13, 18 and 23 and hex digits elsewhere. -/
def uuidTryParse (cs : List Nat) : Option Nat :=
  let a := cs.take 8
  let b := (cs.drop 9).take 4
  let c := (cs.drop 14).take 4
  let d := (cs.drop 19).take 4
  let e := cs.drop 24
  if cs = a ++ 45 :: b ++ 45 :: c ++ 45 :: d ++ 45 :: e ∧ e.length = 12 then
    fromHexAux (a ++ b ++ c ++ d ++ e) 0
  else none

/-- Byte string of `ASSET_MANIFEST_SECTION_PREFIX`, the literal
`"__wasset_manifest:"` from `src/parse.rs`. -/
def manifestTag : List Nat :=
  [95, 95, 119, 97, 115, 115, 101, 116, 95, 109, 97, 110, 105, 102, 101, 115, 116, 58]

/-- Byte string of `ASSET_DATA_SECTION_PREFIX`, the literal
`"__wasset_data:"` from `src/parse.rs`. -/
def dataTag : List Nat :=
  [95, 95, 119, 97, 115, 115, 101, 116, 95, 100, 97, 116, 97, 58]

/-- Models `wasm_encoder::Module::HEADER`: magic `\0asm` and version 1. -/
def HEADER : List Nat := [0, 97, 115, 109, 1, 0, 0, 0]

/-- Top-level section of a core module as surfaced by the `wasmparser` pass:
either a custom section (tag 0) with its parsed name, payload after the name,
raw contents and the absolute offset of the payload within the module buffer,
or any other section kept as its tag and raw contents. -/
inductive Sec where
  | custom (name data contents : List Nat) (dataOff : Nat)
  | other (id : Nat) (contents : List Nat)
deriving DecidableEq, Repr

/-- Models `wasmparser`'s custom-section reader: a LEB128 name length, the name
bytes, then the payload.  Returns the name, the payload, and the header length
(name-length field plus name) used to compute the payload's absolute offset. -/
def customParse (contents : List Nat) : Except WassetError (List Nat × List Nat × Nat) :=
  match lebDecode contents with
  | none => .error (.deserialize "malformed custom section name length")
  | some (n, k) =>
    if contents.length < k + n then .error (.deserialize "custom section name out of bounds")
    else .ok ((contents.drop k).take n, contents.drop (k + n), k + n)

/-- Fuel-bounded core of the section walk: each section is a tag byte (valid
tags are 0 through 12), a LEB128 `u32` size, and that many content bytes;
truncated or malformed input is a fatal error, as in `wasmparser`.  The fuel
is the remaining byte count, which bounds the number of sections. -/
def parseSecsGo : Nat → List Nat → Nat → Except WassetError (List Sec)
  | _, [], _ => .ok []
  | 0, _ :: _, _ => .error (.deserialize "section walk fuel exhausted")
  | fuel + 1, id :: rest, off =>
    if id ≤ 12 then
      match lebDecode rest with
      | none => .error (.deserialize "malformed section size")
      | some (size, k) =>
        if rest.length < k + size then .error (.deserialize "section extends past end of buffer")
        else
          let contents := (rest.drop k).take size
          let tail := rest.drop (k + size)
          let nextOff := off + 1 + k + size
          if id = 0 then
            match customParse contents with
            | .error e => .error e
            | .ok (name, dat, hdr) =>
              (parseSecsGo fuel tail nextOff).map (Sec.custom name dat contents (off + 1 + k + hdr) :: ·)
          else (parseSecsGo fuel tail nextOff).map (Sec.other id contents :: ·)
    else .error (.deserialize "invalid section id")

/-- Section walk over a byte buffer starting at absolute offset `off`. -/
def parseSecs (bs : List Nat) (off : Nat) : Except WassetError (List Sec) :=
  parseSecsGo bs.length bs off

/-- Models the `wasmparser` traversal of a core module: the fixed header
followed by the section sequence (absolute offsets start at 8). -/
def parseModule (m : List Nat) : Except WassetError (List Sec) :=
  if m.take 8 = HEADER then parseSecs (m.drop 8) 8
  else .error (.deserialize "bad module header")

/-- Models `WassetOffsets` from `src/parse.rs`: the absolute data-section
payload offset and the raw manifest bytes recorded for one embedding UUID. -/
structure WassetOffsets where
  dataOff : Nat
  manifest : List Nat
deriving DecidableEq, Repr

/-- Default `WassetOffsets` (`#[derive(Default)]`): offset 0, empty bytes. -/
def WassetOffsets.dflt : WassetOffsets := ⟨0, []⟩

/-- Models `FxHashMap::entry(id).or_default()` followed by a field update:
the binding for `k` is updated in place, a missing binding starts from the
default record. -/
def updEntry (k : Nat) (f : WassetOffsets → WassetOffsets) :
    List (Nat × WassetOffsets) → List (Nat × WassetOffsets)
  | [] => [(k, f WassetOffsets.dflt)]
  | (k', v) :: t => if k = k' then (k, f v) :: t else (k', v) :: updEntry k f t

/-- Models `WassetParser::parse_module_custom_section`: a custom section whose
name starts with the manifest tag records its payload as the UUID's manifest
bytes; one whose name starts with the data tag records the payload's absolute
offset (cast `as u32`); an unparsable UUID suffix is a fatal error; any other
section is ignored. -/
def scanCustom (s : Sec) (offs : List (Nat × WassetOffsets)) :
    Except WassetError (List (Nat × WassetOffsets)) :=
  match s with
  | .custom name dat _ dataOff =>
    if manifestTag.isPrefixOf name then
      match uuidTryParse (name.drop manifestTag.length) with
      | some u => .ok (updEntry u (fun r => { r with manifest := dat }) offs)
      | none => .error (.deserialize "invalid uuid in manifest section name")
    else if dataTag.isPrefixOf name then
      match uuidTryParse (name.drop dataTag.length) with
      | some u => .ok (updEntry u (fun r => { r with dataOff := toU32 dataOff }) offs)
      | none => .error (.deserialize "invalid uuid in data section name")
    else .ok offs
  | .other _ _ => .ok offs

/-- Offset-record accumulation over the scanned section list, as performed by
the loop in `WassetParser::parse`. -/
def scanSecs : List Sec → List (Nat × WassetOffsets) →
    Except WassetError (List (Nat × WassetOffsets))
  | [], offs => .ok offs
  | s :: t, offs =>
    match scanCustom s offs with
    | .ok offs' => scanSecs t offs'
    | .error e => .error e

/-- Loop body of `WassetParser::collect_manifests`: deserialize one
embedding's manifest bytes and insert each `(id, range)` entry into the
accumulating global manifest with both range ends shifted by that embedding's
recorded data offset (wrapping `u32` addition). -/
def collectStep (man : List (Nat × Rng)) (p : Nat × WassetOffsets) :
    Except WassetError (List (Nat × Rng)) :=
  (manifestDeser p.2.manifest).map fun inst =>
    inst.foldl
      (fun m q =>
        insertA q.1 ⟨toU32 (q.2.start + p.2.dataOff), toU32 (q.2.stop + p.2.dataOff)⟩ m)
      man

/-- Models `WassetParser::collect_manifests`: fold every recorded embedding's
entries into one merged manifest. -/
def collectManifests (offs : List (Nat × WassetOffsets)) :
    Except WassetError (List (Nat × Rng)) :=
  offs.foldlM collectStep []

/-- Models `WassetParser`: the merged manifest plus the borrowed module bytes. -/
structure WassetParser where
  manifest : List (Nat × Rng)
  module : List Nat
deriving DecidableEq, Repr

/-- Models `WassetParser::parse`: traverse the module's sections, record the
per-embedding offsets, and fold them into one merged manifest. -/
def WassetParser.parse (m : List Nat) : Except WassetError WassetParser := do
  let secs ← parseModule m
  let offs ← scanSecs secs []
  let manifest ← collectManifests offs
  .ok ⟨manifest, m⟩

/-- Models `WassetItem`: raw asset bytes (the schema type-tag is phantom). -/
structure WassetItem where
  data : List Nat
deriving DecidableEq, Repr

/-- Models `WassetItem::deserialize` for a schema whose structured record
deserializer is `deser`. -/
def WassetItem.deserialize {A : Type} (deser : List Nat → Except WassetError A)
    (it : WassetItem) : Except WassetError A :=
  deser it.data

/-- Models `WassetParser::load_by_range`: `module.get(start..end)` succeeds
exactly when `start ≤ end ≤ len`, and an out-of-range reference is a fatal
`Deserialize` error. -/
def loadByRange (p : WassetParser) (r : Rng) : Except WassetError WassetItem :=
  if r.start ≤ r.stop ∧ r.stop ≤ p.module.length then
    .ok ⟨(p.module.drop r.start).take (r.stop - r.start)⟩
  else .error (.deserialize "index out of range")

/-- Models `WassetParser::load_raw`: manifest lookup, then the bounds-checked
raw slice; an absent ID is `Ok(None)`. -/
def loadRaw (p : WassetParser) (id : Nat) : Except WassetError (Option WassetItem) :=
  match lookupA id p.manifest with
  | some r =>
    match loadByRange p r with
    | .ok it => .ok (some it)
    | .error e => .error e
  | none => .ok none

/-- Models `WassetParser::load`: manifest lookup, bounds-checked slice, then
structured deserialization of the sliced bytes; an absent ID is `Ok(None)`. -/
def load {A : Type} (deser : List Nat → Except WassetError A) (p : WassetParser)
    (id : Nat) : Except WassetError (Option A) :=
  match lookupA id p.manifest with
  | some r =>
    match loadByRange p r with
    | .ok it =>
      match WassetItem.deserialize deser it with
      | .ok a => .ok (some a)
      | .error e => .error e
    | .error e => .error e
  | none => .ok none

/-- Models `wasm_encoder::RawSection::append_to`: the section tag byte, the
contents length as a LEB128 `u32` (cast truncates), then the raw contents. -/
def rawSectionBytes (id : Nat) (contents : List Nat) : List Nat :=
  id :: lebEncode (toU32 contents.length) ++ contents

/-- Sections as surfaced to `strip_module`'s loop by `Parser::parse_all`: a
custom section with its parsed name and payload, any other flat section as its
tag and raw contents, or a framed core-module subsection
(`ComponentSectionId::CoreModule`, tag byte 1, length-prefixed, header-led)
whose own section stream is surfaced recursively — the stream between a
`Payload::ModuleSection` payload and its matching `Payload::End`. -/
inductive NSec where
  | custom (name data contents : List Nat)
  | other (id : Nat) (contents : List Nat)
  | module (subs : List NSec)

/-- Fuel-bounded section walk of `Parser::parse_all` as `strip_module`
consumes it: each section is a tag byte (0 through 12), a LEB128 `u32` size
and that many content bytes; a tag-1 section whose contents begin with the
fixed module header is surfaced as a nested core module — its own section
stream parsed recursively between `Payload::ModuleSection` and the matching
`Payload::End` — and every other section as a flat payload.  The fuel is the
byte count, which bounds both the section count and the nesting depth. -/
def parseNGo : Nat → List Nat → Except WassetError (List NSec)
  | _, [] => .ok []
  | 0, _ :: _ => .error (.deserialize "section walk fuel exhausted")
  | fuel + 1, id :: rest =>
    if id ≤ 12 then
      match lebDecode rest with
      | none => .error (.deserialize "malformed section size")
      | some (size, k) =>
        if rest.length < k + size then .error (.deserialize "section extends past end of buffer")
        else
          let contents := (rest.drop k).take size
          let tail := rest.drop (k + size)
          if id = 0 then
            match customParse contents with
            | .error e => .error e
            | .ok (name, dat, _) =>
              (parseNGo fuel tail).map (NSec.custom name dat contents :: ·)
          else if id = 1 ∧ contents.take 8 = HEADER then
            match parseNGo fuel (contents.drop 8) with
            | .error e => .error e
            | .ok subs => (parseNGo fuel tail).map (NSec.module subs :: ·)
          else (parseNGo fuel tail).map (NSec.other id contents :: ·)
    else .error (.deserialize "invalid section id")

/-- Nest-aware section walk over a byte buffer. -/
def parseN (bs : List Nat) : Except WassetError (List NSec) := parseNGo bs.length bs

/-- The `Parser::parse_all` traversal `strip_module` drives: the fixed module
header, then the nest-aware section stream. -/
def parseNModule (m : List Nat) : Except WassetError (List NSec) :=
  if m.take 8 = HEADER then parseN (m.drop 8)
  else .error (.deserialize "bad module header")

/-- Decides whether `strip_module` copies a section: every section except the
custom sections whose name starts with the manifest tag or the data tag. -/
def keepNSec : NSec → Bool
  | .custom name _ _ => !(manifestTag.isPrefixOf name || dataTag.isPrefixOf name)
  | .other _ _ => true
  | .module _ => true

/-- Byte emission of `strip_module`'s loop over one section stream:
asset-tagged custom sections are skipped (`continue`); every other flat
section is re-emitted from its original raw contents by
`RawSection::append_to`; a nested module pushes the output buffer
(`Payload::ModuleSection`, the stack frame here being the recursion), rebuilds
the nested stream behind the fixed header written at its `Payload::Version`,
and at the matching `Payload::End` frames the result as a core-module section
(tag `ComponentSectionId::CoreModule = 1`) behind its length. -/
def emitNSecs : List NSec → List Nat
  | [] => []
  | .custom name _ contents :: t =>
    (if manifestTag.isPrefixOf name || dataTag.isPrefixOf name then []
     else rawSectionBytes 0 contents) ++ emitNSecs t
  | .other id contents :: t => rawSectionBytes id contents ++ emitNSecs t
  | .module subs :: t => rawSectionBytes 1 (HEADER ++ emitNSecs subs) ++ emitNSecs t

/-- Models `WassetParser::strip_module` over the nested-module grammar: walk
the stream, write the fixed header, copy kept flat sections, omit asset-tagged
custom sections, and re-frame nested modules recursively. -/
def stripModule (m : List Nat) : Except WassetError (List Nat) :=
  match parseNModule m with
  | .error e => .error e
  | .ok secs => .ok (HEADER ++ emitNSecs secs)

/-- Spec-side characterization of the sections `strip_module` omits (C5):
custom sections whose name starts with the manifest tag or the data tag. -/
def isAssetNSec : NSec → Bool
  | .custom name _ _ => manifestTag.isPrefixOf name || dataTag.isPrefixOf name
  | .other _ _ => false
  | .module _ => false

/-- Identifying tag byte of a section. -/
def NSec.tagByte : NSec → Nat
  | .custom _ _ _ => 0
  | .other i _ => i
  | .module _ => 1

/-- Raw contents of a flat section (its original byte range behind the
header); nested modules have no copied raw range. -/
def NSec.rawContents : NSec → List Nat
  | .custom _ _ c => c
  | .other _ c => c
  | .module _ => []

/-- Spec-side description of the stripped byte stream, written from the
amended C5 text: asset-tagged customs are omitted; every other flat section is
its original tag byte and its original raw contents behind a re-encoded size;
a nested module section is not copied but rebuilt — re-framed as a fresh
core-module section holding the fixed header and its recursively stripped
stream. -/
def stripSpecN : List NSec → List Nat
  | [] => []
  | NSec.module subs :: t =>
    (NSec.tagByte (NSec.module subs)
        :: lebEncode (toU32 (HEADER ++ stripSpecN subs).length) ++ (HEADER ++ stripSpecN subs))
      ++ stripSpecN t
  | s :: t =>
    (if isAssetNSec s then []
     else NSec.tagByte s :: lebEncode (toU32 (NSec.rawContents s).length) ++ NSec.rawContents s)
      ++ stripSpecN t

/-- The sections `strip_module` keeps, at every nesting depth. -/
def filterN : List NSec → List NSec
  | [] => []
  | .custom name dat contents :: t =>
    if manifestTag.isPrefixOf name || dataTag.isPrefixOf name then filterN t
    else .custom name dat contents :: filterN t
  | .other id contents :: t => .other id contents :: filterN t
  | .module subs :: t => .module (filterN subs) :: filterN t

/-- Well-formedness facts the nest-aware walk guarantees for every section it
returns: custom contents fit a `u32` size and re-parse to the same name and
payload; flat tags are valid, non-zero and not module frames; and a nested
module re-frames below the `u32` size limit. -/
def NSecOKs : List NSec → Prop
  | [] => True
  | .custom name dat contents :: t =>
    (contents.length < 2 ^ 32 ∧ ∃ hdr, customParse contents = .ok (name, dat, hdr)) ∧ NSecOKs t
  | .other id contents :: t =>
    (contents.length < 2 ^ 32 ∧ id ≤ 12 ∧ id ≠ 0 ∧ ¬(id = 1 ∧ contents.take 8 = HEADER))
      ∧ NSecOKs t
  | .module subs :: t =>
    ((HEADER ++ emitNSecs subs).length < 2 ^ 32 ∧ NSecOKs subs) ∧ NSecOKs t

/-- Models a parsed TOML value as the encoder consumes it: either a nested
table or some non-table value (the walk only distinguishes the two). -/
inductive TomlValue where
  | table (t : List (String × TomlValue))
  | prim (s : String)

/-- Models one directory entry of the input folder tree: a file carries its
name stem, its extension (empty for none) and its raw bytes; a directory
carries its name, its parsed `Wasset.toml` table (empty when the file is
absent) and its entries in `read_dir` order. -/
inductive DirEntry where
  | file (stem ext : String) (contents : List Nat)
  | dir (name : String) (toml : List (String × TomlValue)) (entries : List DirEntry)

/-- Models `AssetHierarchy`: leaf `(display name, id)` entries plus named
sub-hierarchies. -/
inductive AssetHierarchy where
  | node (assets : List (String × Nat)) (subs : List (String × AssetHierarchy))

/-- Leaf entries of a hierarchy node. -/
def AssetHierarchy.assets : AssetHierarchy → List (String × Nat)
  | .node a _ => a

/-- Sub-hierarchies of a hierarchy node. -/
def AssetHierarchy.subs : AssetHierarchy → List (String × AssetHierarchy)
  | .node _ s => s

/-- Default (empty) hierarchy node. -/
def AssetHierarchy.empty : AssetHierarchy := .node [] []

/-- Stores a finished sub-walk's hierarchy under a directory name, the net
effect of mutating the node behind `sub_hierarchies.entry(name).or_default()`. -/
def AssetHierarchy.withSub (h : AssetHierarchy) (name : String) (sub : AssetHierarchy) :
    AssetHierarchy :=
  .node h.assets (insertA name sub h.subs)

/-- Appends one `EncodedAsset` leaf to a node, as `assets.push` does. -/
def AssetHierarchy.pushAsset (h : AssetHierarchy) (stem : String) (id : Nat) :
    AssetHierarchy :=
  .node (h.assets ++ [(stem, id)]) h.subs

/-- Models `EncodingOperation` plus the fresh-ID supply position: the shared
data blob, the current hierarchy node, the manifest under construction, and
the count of IDs drawn so far (`Uuid::new_v4` is modelled as reading the
`ctr`-th value of an injective ID supply). -/
structure EncState where
  data : List Nat
  hier : AssetHierarchy
  manifest : List (Nat × Rng)
  ctr : Nat

/-- Models a file's full name `stem.ext` (just the stem when there is no
extension), the key used for the metadata lookup. -/
def fullName (stem ext : String) : String :=
  if ext = "" then stem else stem ++ "." ++ ext

/-- Models the metadata resolution in `load_assets_in_folder`: the table entry
matching the file name, the empty table when absent, and a fatal `Serialize`
error when the entry exists but is not a table. -/
def metaFor (toml : List (String × TomlValue)) (stem ext : String) :
    Except WassetError (List (String × TomlValue)) :=
  match lookupA (fullName stem ext) toml with
  | some (.table t) => .ok t
  | none => .ok []
  | some (.prim _) => .error (.serialize "unexpected metadata value; expected table")

section Encode

variable {A : Type} (ser : A → List Nat)
variable (enc : String → List (String × TomlValue) → List Nat → Except WassetError (Option A))
variable (supply : Nat → Nat)

/-- Models `load_assets_in_folder`: a depth-first walk over the entry list.
Directories recurse into their own sub-node sharing the data blob and the
manifest; files resolve their metadata, invoke the encoder, and on a produced
record allocate a fresh ID, append the serialized record to the blob, record
`[old_length, new_length)` (cast `as u32`) under the ID, and push the leaf;
a `None` from the encoder skips the file; any error aborts the whole walk. -/
def walkEntries : List (String × TomlValue) → List DirEntry → EncState →
    Except WassetError EncState
  | _, [], st => .ok st
  | toml, .dir name toml' sub :: t, st => do
    let subH := (lookupA name st.hier.subs).getD AssetHierarchy.empty
    let st' ← walkEntries toml' sub { st with hier := subH }
    walkEntries toml t
      { data := st'.data
        hier := st.hier.withSub name st'.hier
        manifest := st'.manifest
        ctr := st'.ctr }
  | toml, .file stem ext dat :: t, st =>
    match metaFor toml stem ext with
    | .error e => .error e
    | .ok tbl =>
      match enc ext tbl dat with
      | .error e => .error e
      | .ok none => walkEntries toml t st
      | .ok (some a) =>
        let id := supply st.ctr
        let start := toU32 st.data.length
        let data' := st.data ++ ser a
        let stop := toU32 data'.length
        walkEntries toml t
          { data := data'
            hier := st.hier.pushAsset stem id
            manifest := insertA id ⟨start, stop⟩ st.manifest
            ctr := st.ctr + 1 }

/-- Models `EncodedAssets`: the data blob, the named root hierarchy, and the
serialized manifest bytes. -/
structure EncodedAssets where
  data : List Nat
  encodedAssets : List (String × AssetHierarchy)
  manifest : List Nat

/-- Models `encode_asset_folder`: walk the root folder from an empty state,
name the root hierarchy node after the folder, and serialize the finished
manifest with the structured serializer. -/
def encodeAssetFolder (rootName : String) (toml : List (String × TomlValue))
    (entries : List DirEntry) : Except WassetError EncodedAssets := do
  let st ← walkEntries ser enc supply toml entries ⟨[], AssetHierarchy.empty, [], 0⟩
  .ok ⟨st.data, [(rootName, st.hier)], manifestSer st.manifest⟩

/-- Specification-side companion of the walk: the `(id, record)` pairs the
encoder produces, in traversal order, with the IDs the supply assigns from
position `ctr` on.  Entries on which the walk would abort contribute nothing
(the companion is only consulted when the walk succeeds). -/
def folderRecords : List (String × TomlValue) → List DirEntry → Nat → List (Nat × A)
  | _, [], _ => []
  | toml, .dir _ toml' sub :: t, ctr =>
    let r := folderRecords toml' sub ctr
    r ++ folderRecords toml t (ctr + r.length)
  | toml, .file stem ext dat :: t, ctr =>
    match metaFor toml stem ext with
    | .error _ => folderRecords toml t ctr
    | .ok tbl =>
      match enc ext tbl dat with
      | .ok (some a) => (supply ctr, a) :: folderRecords toml t (ctr + 1)
      | _ => folderRecords toml t ctr

/-- Byte ranges the walk records for a record list appended to a blob of
length `base`: each record occupies `[base', base' + len)` (cast `as u32`). -/
def rangesFrom : Nat → List (Nat × A) → List (Nat × Rng)
  | _, [] => []
  | base, (id, a) :: t =>
    (id, ⟨toU32 base, toU32 (base + (ser a).length)⟩) :: rangesFrom (base + (ser a).length) t

end Encode

/-- Models the external embedding step (the two `link_section` statics emitted
by `write_assets` in `src/encode/proc_macro.rs`): a module holding the bundle
as two custom sections named `<manifest tag><uuid>` and `<data tag><uuid>`. -/
def embedModule (ea : EncodedAssets) (u : Nat) : List Nat :=
  let mName := manifestTag ++ uuidStr u
  let dName := dataTag ++ uuidStr u
  HEADER ++
    rawSectionBytes 0 (lebEncode (toU32 mName.length) ++ mName ++ ea.manifest) ++
    rawSectionBytes 0 (lebEncode (toU32 dName.length) ++ dName ++ ea.data)

/-- Asset IDs contributed by each embedding's deserializable manifest, in
scan-record order. -/
def embKeys (offs : List (Nat × WassetOffsets)) : List Nat :=
  offs.flatMap fun p =>
    match manifestDeser p.2.manifest with
    | .ok inst => inst.map Prod.fst
    | .error _ => []

/-- Entries one embedding contributes to the merged manifest: its
deserialized entries with both range ends shifted by its data offset. -/
def shiftedOf (p : Nat × WassetOffsets) : List (Nat × Rng) :=
  match manifestDeser p.2.manifest with
  | .ok inst =>
    inst.map fun q => (q.1, ⟨toU32 (q.2.start + p.2.dataOff), toU32 (q.2.stop + p.2.dataOff)⟩)
  | .error _ => []

/-- Serialized blob contributed by a record list. -/
def blobOf {A : Type} (ser : A → List Nat) (rs : List (Nat × A)) : List Nat :=
  rs.flatMap fun p => ser p.2

/-- Absolute offset at which the data-section payload of `embedModule` starts:
everything before the trailing blob. -/
def embedDataOff (ea : EncodedAssets) (u : Nat) : Nat :=
  (embedModule ea u).length - ea.data.length

/-! Association-list lemmas. -/

theorem lookupA_eq_none {α β : Type} [DecidableEq α] (k : α) :
    ∀ l : List (α × β), k ∉ l.map Prod.fst → lookupA k l = none := by
  intro l
  induction l with
  | nil => intro _; rfl
  | cons p t ih =>
    intro h
    simp only [List.map_cons, List.mem_cons] at h
    push_neg at h
    simp only [lookupA, if_neg h.1]
    exact ih h.2

theorem lookupA_mem {α β : Type} [DecidableEq α] (k : α) (v : β) :
    ∀ l : List (α × β), lookupA k l = some v → (k, v) ∈ l := by
  intro l
  induction l with
  | nil => intro h; simp [lookupA] at h
  | cons p t ih =>
    intro h
    simp only [lookupA] at h
    by_cases hk : k = p.1
    · subst hk
      simp only [if_pos rfl] at h
      cases h
      exact List.mem_cons_self p t
    · simp only [if_neg hk] at h
      exact List.mem_cons_of_mem _ (ih h)

theorem mem_lookupA {α β : Type} [DecidableEq α] (k : α) (v : β) :
    ∀ l : List (α × β), (l.map Prod.fst).Nodup → (k, v) ∈ l → lookupA k l = some v := by
  intro l
  induction l with
  | nil => intro _ h; simp at h
  | cons p t ih =>
    intro nd h
    simp only [List.map_cons, List.nodup_cons] at nd
    rcases List.mem_cons.mp h with h1 | h1
    · cases h1
      simp [lookupA]
    · have hk : k ≠ p.1 := by
        intro he
        exact nd.1 (he ▸ (List.mem_map.mpr ⟨(k, v), h1, rfl⟩))
      simp only [lookupA, if_neg hk]
      exact ih nd.2 h1

theorem insertA_of_absent {α β : Type} [DecidableEq α] (k : α) (v : β) :
    ∀ l : List (α × β), k ∉ l.map Prod.fst → insertA k v l = l ++ [(k, v)] := by
  intro l
  induction l with
  | nil => intro _; rfl
  | cons p t ih =>
    intro h
    simp only [List.map_cons, List.mem_cons] at h
    push_neg at h
    simp only [insertA, if_neg h.1, ih h.2, List.cons_append]

/-- Folding key-wise inserts of fresh, pairwise-distinct keys appends the
bindings in order. -/
theorem foldl_insertA {β γ : Type} (g : Nat × β → γ) :
    ∀ (rs : List (Nat × β)) (init : List (Nat × γ)),
      (rs.map Prod.fst).Nodup → (∀ p ∈ rs, p.1 ∉ init.map Prod.fst) →
      rs.foldl (fun m q => insertA q.1 (g q) m) init = init ++ rs.map fun q => (q.1, g q) := by
  intro rs
  induction rs with
  | nil => intro init _ _; simp
  | cons p t ih =>
    intro init nd habs
    simp only [List.map_cons, List.nodup_cons] at nd
    simp only [List.foldl_cons]
    rw [insertA_of_absent _ _ _ (habs p (List.mem_cons_self p t))]
    rw [ih (init ++ [(p.1, g p)]) nd.2]
    · simp
    · intro q hq
      simp only [List.map_append, List.mem_append, List.map_cons]
      push_neg
      refine ⟨habs q (List.mem_cons_of_mem _ hq), ?_⟩
      simp only [List.map_nil, List.mem_singleton]
      intro he
      exact nd.1 (he ▸ (List.mem_map.mpr ⟨q, hq, rfl⟩))

theorem lookupA_map_snd {β γ : Type} (f : β → γ) (k : Nat) :
    ∀ l : List (Nat × β),
      lookupA k (l.map fun q => (q.1, f q.2)) = (lookupA k l).map f := by
  intro l
  induction l with
  | nil => rfl
  | cons p t ih =>
    by_cases hk : k = p.1 <;> simp [lookupA, hk, ih]

/-! LEB128 lemmas. -/

theorem lebEncodeGo_length :
    ∀ fuel k n, 0 < k → k ≤ fuel + 1 → n < 128 ^ k → (lebEncodeGo fuel n).length ≤ k := by
  intro fuel
  induction fuel with
  | zero =>
    intro k n hk _ _
    simp only [lebEncodeGo, List.length_cons, List.length_nil]
    omega
  | succ f ih =>
    intro k n hk hkf hn
    by_cases h : n < 128
    · simp only [lebEncodeGo, if_pos h, List.length_cons, List.length_nil]
      omega
    · have hk2 : 2 ≤ k := by
        by_contra hlt
        have hk1 : k = 1 := by omega
        rw [hk1] at hn
        simp at hn
        omega
      have hdiv : n / 128 < 128 ^ (k - 1) := by
        have hpow : 128 ^ (k - 1) * 128 = 128 ^ k := by
          rw [← Nat.pow_succ]
          congr 1
          omega
        have hlt : n < 128 ^ (k - 1) * 128 := by omega
        omega
      have := ih (k - 1) (n / 128) (by omega) (by omega) hdiv
      simp only [lebEncodeGo, if_neg h, List.length_cons]
      omega

theorem lebDecodeGo_encode :
    ∀ fuel n, n < 128 ^ (fuel + 1) →
      ∀ budget rest, (lebEncodeGo fuel n).length ≤ budget →
      lebDecodeGo budget (lebEncodeGo fuel n ++ rest) = some (n, (lebEncodeGo fuel n).length) := by
  intro fuel
  induction fuel with
  | zero =>
    intro n hn budget rest hb
    have hn' : n < 128 := by simpa using hn
    simp only [lebEncodeGo, List.length_cons, List.length_nil] at hb ⊢
    obtain ⟨b', rfl⟩ : ∃ b', budget = b' + 1 := ⟨budget - 1, by omega⟩
    simp [lebDecodeGo, Nat.mod_eq_of_lt hn', Nat.mod_eq_of_lt (show n < 256 by omega), hn']
  | succ f ih =>
    intro n hn budget rest hb
    by_cases h : n < 128
    · simp only [lebEncodeGo, if_pos h, List.length_cons, List.length_nil] at hb ⊢
      obtain ⟨b', rfl⟩ : ∃ b', budget = b' + 1 := ⟨budget - 1, by omega⟩
      simp [lebDecodeGo, Nat.mod_eq_of_lt (show n < 256 by omega), h]
    · simp only [lebEncodeGo, if_neg h, List.length_cons] at hb ⊢
      obtain ⟨b', rfl⟩ : ∃ b', budget = b' + 1 := ⟨budget - 1, by omega⟩
      have hdiv : n / 128 < 128 ^ (f + 1) := by
        have : n < 128 ^ (f + 1) * 128 := by
          calc n < 128 ^ (f + 2) := hn
          _ = 128 ^ (f + 1) * 128 := by rw [← Nat.pow_succ]
        omega
      have hrec := ih (n / 128) hdiv b' rest (by omega)
      have hmod : n % 128 + 128 < 256 := by omega
      have hmod128 : (n % 128 + 128) % 128 = n % 128 := by omega
      have hge : ¬ (n % 128 + 128 < 128) := by omega
      simp only [lebDecodeGo, List.cons_append, List.append_eq]
      rw [Nat.mod_eq_of_lt hmod]
      simp only [if_neg hge, hmod128, hrec]
      rw [Nat.mod_add_div]

theorem lebEncode_length_le (n : Nat) (hn : n < 2 ^ 32) : (lebEncode n).length ≤ 5 :=
  lebEncodeGo_length 5 5 n (by omega) (by omega) (by norm_num at hn ⊢; omega)

theorem lebDecode_lebEncode (n : Nat) (hn : n < 2 ^ 32) (rest : List Nat) :
    lebDecode (lebEncode n ++ rest) = some (n, (lebEncode n).length) := by
  have h1 : n < 128 ^ (5 + 1) := by norm_num at hn ⊢; omega
  have h2 := lebEncode_length_le n hn
  have hn' : n < 4294967296 := by norm_num at hn; exact hn
  unfold lebDecode lebEncode
  rw [lebDecodeGo_encode 5 n h1 5 rest h2]
  simp [hn', lebEncode]

theorem lebEncodeGo_succ (f n : Nat) :
    lebEncodeGo (f + 1) n = if n < 128 then [n] else (n % 128 + 128) :: lebEncodeGo f (n / 128) :=
  rfl

theorem lebEncodeGo_length_pos : ∀ fuel n, 1 ≤ (lebEncodeGo fuel n).length := by
  intro fuel n
  cases fuel with
  | zero => simp [lebEncodeGo]
  | succ f =>
    rw [lebEncodeGo_succ]
    by_cases h : n < 128
    · simp [h]
    · simp [h]

theorem lebEncodeGo_length_fuel :
    ∀ fuel n, (lebEncodeGo fuel n).length ≤ (lebEncodeGo (fuel + 1) n).length := by
  intro fuel
  induction fuel with
  | zero =>
    intro n
    rw [lebEncodeGo_succ]
    by_cases h : n < 128
    · simp [h, lebEncodeGo]
    · simp [h, lebEncodeGo]
  | succ f ih =>
    intro n
    rw [lebEncodeGo_succ f n, lebEncodeGo_succ (f + 1) n]
    by_cases h : n < 128
    · simp [h]
    · simp only [if_neg h, List.length_cons]
      have := ih (n / 128)
      omega

theorem lebEncodeGo_length_mono :
    ∀ fuel m n, m ≤ n → (lebEncodeGo fuel m).length ≤ (lebEncodeGo fuel n).length := by
  intro fuel
  induction fuel with
  | zero => intro m n _; simp [lebEncodeGo]
  | succ f ih =>
    intro m n hmn
    rw [lebEncodeGo_succ f m, lebEncodeGo_succ f n]
    by_cases hm : m < 128
    · rw [if_pos hm]
      have := lebEncodeGo_length_pos (f + 1) n
      rw [lebEncodeGo_succ f n] at this
      simpa using this
    · have hn : ¬ n < 128 := by omega
      rw [if_neg hm, if_neg hn]
      simp only [List.length_cons]
      have := ih (m / 128) (n / 128) (Nat.div_le_div_right hmn)
      omega

theorem lebEncode_small {v : Nat} (h : v < 128) : lebEncode v = [v] := by
  show lebEncodeGo 5 v = [v]
  rw [lebEncodeGo_succ, if_pos h]

theorem lebEncode_big {v : Nat} (h : ¬ v < 128) :
    lebEncode v = (v % 128 + 128) :: lebEncodeGo 4 (v / 128) := by
  show lebEncodeGo 5 v = _
  rw [lebEncodeGo_succ, if_neg h]

/-- The canonical encoding is monotone in length. -/
theorem lebEncode_length_mono {m n : Nat} (h : m ≤ n) :
    (lebEncode m).length ≤ (lebEncode n).length :=
  lebEncodeGo_length_mono 5 m n h

/-- Minimality: any accepted LEB encoding of a value is at least as long as
the canonical one. -/
theorem lebDecodeGo_min :
    ∀ budget bs v c, lebDecodeGo budget bs = some (v, c) → (lebEncode v).length ≤ c := by
  intro budget
  induction budget with
  | zero => intro bs v c h; simp [lebDecodeGo] at h
  | succ b ih =>
    intro bs v c h
    cases bs with
    | nil => simp [lebDecodeGo] at h
    | cons x t =>
      simp only [lebDecodeGo] at h
      by_cases hlo : x % 256 < 128
      · rw [if_pos hlo] at h
        cases h
        rw [lebEncode_small hlo]
        simp
      · rw [if_neg hlo] at h
        cases hrec : lebDecodeGo b t with
        | none => rw [hrec] at h; cases h
        | some p =>
          obtain ⟨v', c'⟩ := p
          rw [hrec] at h
          cases h
          have hih := ih t v' c' hrec
          by_cases hv : v' = 0
          · subst hv
            rw [lebEncode_small (show x % 256 % 128 + 128 * 0 < 128 by omega)]
            simp
          · have hbig : ¬ (x % 256 % 128 + 128 * v' < 128) := by
              have : 1 ≤ v' := by omega
              omega
            have hdiv : (x % 256 % 128 + 128 * v') / 128 = v' := by
              rw [Nat.add_mul_div_left _ _ (by norm_num)]
              rw [Nat.div_eq_of_lt (by omega)]
              omega
            rw [lebEncode_big hbig, hdiv]
            simp only [List.length_cons]
            have h45 : (lebEncodeGo 4 v').length ≤ (lebEncodeGo 5 v').length :=
              lebEncodeGo_length_fuel 4 v'
            have hle : (lebEncodeGo 5 v').length ≤ c' := hih
            omega

theorem lebDecode_min {bs : List Nat} {v c : Nat} (h : lebDecode bs = some (v, c)) :
    (lebEncode v).length ≤ c := by
  unfold lebDecode at h
  cases hgo : lebDecodeGo 5 bs with
  | none => rw [hgo] at h; cases h
  | some p =>
    rw [hgo] at h
    by_cases hv : p.1 < 2 ^ 32
    · simp only [hv, if_true] at h
      cases h
      exact lebDecodeGo_min 5 bs _ _ (by rw [hgo])
    · simp only [hv, if_false] at h
      cases h

/-! Byte-string codec lemmas. -/

theorem bytesLE_length : ∀ w v, (bytesLE w v).length = w := by
  intro w
  induction w with
  | zero => intro v; rfl
  | succ w ih => intro v; simp [bytesLE, ih]

theorem natLE_bytesLE : ∀ w v, natLE (bytesLE w v) = v % 256 ^ w := by
  intro w
  induction w with
  | zero => intro v; simp [bytesLE, natLE, Nat.mod_one]
  | succ w ih =>
    intro v
    simp only [bytesLE, natLE, ih]
    rw [Nat.mod_mod_of_dvd v (dvd_refl 256), Nat.pow_succ', Nat.mod_mul]

/-! Manifest-codec round-trip. -/

theorem readEntries_flat :
    ∀ m : List (Nat × Rng), (∀ p ∈ m, p.1 < 2 ^ 128 ∧ p.2.start < 2 ^ 32 ∧ p.2.stop < 2 ^ 32) →
      readEntries m.length
        (m.flatMap fun p => bytesLE 16 p.1 ++ bytesLE 4 p.2.start ++ bytesLE 4 p.2.stop) = .ok m := by
  intro m
  induction m with
  | nil => intro _; rfl
  | cons p t ih =>
    intro hb
    obtain ⟨id, s, e⟩ := p
    obtain ⟨h1, h2, h3⟩ := hb _ (List.mem_cons_self _ _)
    simp only at h1 h2 h3
    have l16 : (bytesLE 16 id).length = 16 := bytesLE_length ..
    have l4s : (bytesLE 4 s).length = 4 := bytesLE_length ..
    have l4e : (bytesLE 4 e).length = 4 := bytesLE_length ..
    simp only [List.flatMap_cons, List.length_cons]
    set rest := t.flatMap fun p => bytesLE 16 p.1 ++ bytesLE 4 p.2.start ++ bytesLE 4 p.2.stop
      with hrest
    have hbs : bytesLE 16 id ++ bytesLE 4 s ++ bytesLE 4 e ++ rest
        = bytesLE 16 id ++ (bytesLE 4 s ++ (bytesLE 4 e ++ rest)) := by
      simp [List.append_assoc]
    have hlen : (bytesLE 16 id ++ bytesLE 4 s ++ bytesLE 4 e ++ rest).length = 24 + rest.length := by
      simp [l16, l4s, l4e]
      omega
    simp only [readEntries, hlen]
    rw [if_neg (by omega)]
    have htake16 : (bytesLE 16 id ++ bytesLE 4 s ++ bytesLE 4 e ++ rest).take 16 = bytesLE 16 id := by
      rw [hbs]
      exact List.take_left' l16
    have hdrop16 : (bytesLE 16 id ++ bytesLE 4 s ++ bytesLE 4 e ++ rest).drop 16
        = bytesLE 4 s ++ (bytesLE 4 e ++ rest) := by
      rw [hbs]
      exact List.drop_left' l16
    have hdrop20 : (bytesLE 16 id ++ bytesLE 4 s ++ bytesLE 4 e ++ rest).drop 20
        = bytesLE 4 e ++ rest := by
      have : bytesLE 16 id ++ bytesLE 4 s ++ bytesLE 4 e ++ rest
          = (bytesLE 16 id ++ bytesLE 4 s) ++ (bytesLE 4 e ++ rest) := by
        simp [List.append_assoc]
      rw [this]
      exact List.drop_left' (by simp [l16, l4s])
    have hdrop24 : (bytesLE 16 id ++ bytesLE 4 s ++ bytesLE 4 e ++ rest).drop 24 = rest := by
      have : bytesLE 16 id ++ bytesLE 4 s ++ bytesLE 4 e ++ rest
          = (bytesLE 16 id ++ bytesLE 4 s ++ bytesLE 4 e) ++ rest := by
        simp [List.append_assoc]
      rw [this]
      exact List.drop_left' (by simp [l16, l4s, l4e])
    rw [htake16, hdrop16, hdrop20, hdrop24]
    rw [List.take_left' l4s, List.take_left' l4e]
    rw [ih (fun q hq => hb q (List.mem_cons_of_mem _ hq))]
    have hid : natLE (bytesLE 16 id) = id := by
      rw [natLE_bytesLE]
      have : (256 : Nat) ^ 16 = 2 ^ 128 := by norm_num
      rw [this]
      exact Nat.mod_eq_of_lt h1
    have hs : natLE (bytesLE 4 s) = s := by
      rw [natLE_bytesLE]
      have : (256 : Nat) ^ 4 = 2 ^ 32 := by norm_num
      rw [this]
      exact Nat.mod_eq_of_lt h2
    have he : natLE (bytesLE 4 e) = e := by
      rw [natLE_bytesLE]
      have : (256 : Nat) ^ 4 = 2 ^ 32 := by norm_num
      rw [this]
      exact Nat.mod_eq_of_lt h3
    simp [hid, hs, he]
    rfl

/-- Round-trip of the modelled manifest wire format on bounded manifests. -/
theorem manifestDeser_manifestSer (m : List (Nat × Rng))
    (hb : ∀ p ∈ m, p.1 < 2 ^ 128 ∧ p.2.start < 2 ^ 32 ∧ p.2.stop < 2 ^ 32)
    (hlen : m.length < 2 ^ 32) :
    manifestDeser (manifestSer m) = .ok m := by
  have h1 := lebDecode_lebEncode m.length hlen
    (m.flatMap fun p => bytesLE 16 p.1 ++ bytesLE 4 p.2.start ++ bytesLE 4 p.2.stop)
  simp only [manifestDeser, manifestSer, h1]
  rw [List.drop_left' rfl]
  exact readEntries_flat m hb

/-- Empty manifest bytes (the default record of an embedding that never saw a
manifest section) fail structured deserialization. -/
theorem manifestDeser_nil : ∃ msg, manifestDeser [] = .error (.deserialize msg) :=
  ⟨"invalid manifest header", rfl⟩

theorem readEntries_error_kind :
    ∀ n bs e, readEntries n bs = .error e → ∃ msg, e = .deserialize msg := by
  intro n
  induction n with
  | zero =>
    intro bs e h
    cases bs with
    | nil => simp [readEntries] at h
    | cons b t =>
      simp only [readEntries] at h
      cases h
      exact ⟨_, rfl⟩
  | succ n ih =>
    intro bs e h
    simp only [readEntries] at h
    by_cases hlt : bs.length < 24
    · rw [if_pos hlt] at h
      cases h
      exact ⟨_, rfl⟩
    · rw [if_neg hlt] at h
      cases hre : readEntries n (bs.drop 24) with
      | ok v => rw [hre] at h; simp [Except.map] at h
      | error e' =>
        rw [hre] at h
        simp only [Except.map] at h
        cases h
        exact ih _ _ hre

/-- Every error `manifestDeser` can produce is a `Deserialize` error. -/
theorem manifestDeser_error_kind (bs : List Nat) (e : WassetError) :
    manifestDeser bs = .error e → ∃ msg, e = .deserialize msg := by
  unfold manifestDeser
  cases lebDecode bs with
  | none => intro h; cases h; exact ⟨_, rfl⟩
  | some p => exact readEntries_error_kind p.1 _ e

/-! Hex / UUID round-trip. -/

theorem hexVal_hexChar : ∀ d, d < 16 → hexVal (hexChar d) = some d := by decide

theorem toHex_length : ∀ k v, (toHex k v).length = k := by
  intro k
  induction k with
  | zero => intro v; rfl
  | succ k ih => intro v; simp [toHex, ih]

theorem fromHexAux_append :
    ∀ xs ys acc, fromHexAux (xs ++ ys) acc =
      match fromHexAux xs acc with
      | some a => fromHexAux ys a
      | none => none := by
  intro xs
  induction xs with
  | nil => intro ys acc; rfl
  | cons c t ih =>
    intro ys acc
    simp only [List.cons_append, fromHexAux]
    cases hexVal c with
    | some d => exact ih ys _
    | none => rfl

theorem fromHexAux_toHex : ∀ k v acc, fromHexAux (toHex k v) acc = some (acc * 16 ^ k + v % 16 ^ k) := by
  intro k
  induction k with
  | zero => intro v acc; simp [toHex, fromHexAux, Nat.mod_one]
  | succ k ih =>
    intro v acc
    simp only [toHex]
    rw [fromHexAux_append]
    rw [ih (v / 16) acc]
    have hd : v % 16 < 16 := Nat.mod_lt _ (by norm_num)
    have hv := hexVal_hexChar (v % 16) hd
    simp only [fromHexAux, hv]
    congr 1
    rw [Nat.pow_succ', Nat.mod_mul]
    ring

theorem uuidStr_length (u : Nat) : (uuidStr u).length = 36 := by
  simp [uuidStr, toHex_length]

/-- Round-trip of the canonical UUID display form through `Uuid::try_parse`. -/
theorem uuidTryParse_uuidStr (u : Nat) (hu : u < 2 ^ 128) :
    uuidTryParse (uuidStr u) = some u := by
  have hd32 : (toHex 32 u).length = 32 := toHex_length ..
  set d := toHex 32 u with hdd
  set A := d.take 8 with hA
  set B := (d.drop 8).take 4 with hB
  set C := (d.drop 12).take 4 with hC
  set D := (d.drop 16).take 4 with hD
  set E := d.drop 20 with hE
  have lA : A.length = 8 := by simp [hA, hd32]
  have lB : B.length = 4 := by simp [hB, hd32]
  have lC : C.length = 4 := by simp [hC, hd32]
  have lD : D.length = 4 := by simp [hD, hd32]
  have lE : E.length = 12 := by simp [hE, hd32]
  have hcs : uuidStr u = A ++ 45 :: B ++ 45 :: C ++ 45 :: D ++ 45 :: E := by
    simp only [uuidStr, hA, hB, hC, hD, hE, hdd]
  have hreasm : A ++ B ++ C ++ D ++ E = d := by
    have e1 : d = d.take 8 ++ d.drop 8 := (List.take_append_drop 8 d).symm
    have e2 : d.drop 8 = (d.drop 8).take 4 ++ (d.drop 8).drop 4 := (List.take_append_drop 4 _).symm
    have e3 : (d.drop 8).drop 4 = d.drop 12 := by rw [List.drop_drop]
    have e4 : d.drop 12 = (d.drop 12).take 4 ++ (d.drop 12).drop 4 := (List.take_append_drop 4 _).symm
    have e5 : (d.drop 12).drop 4 = d.drop 16 := by rw [List.drop_drop]
    have e6 : d.drop 16 = (d.drop 16).take 4 ++ (d.drop 16).drop 4 := (List.take_append_drop 4 _).symm
    have e7 : (d.drop 16).drop 4 = d.drop 20 := by rw [List.drop_drop]
    conv_rhs => rw [e1, e2, e3, e4, e5, e6, e7]
    simp only [hA, hB, hC, hD, hE, List.append_assoc]
  rw [hcs]
  have ht8 : (A ++ 45 :: B ++ 45 :: C ++ 45 :: D ++ 45 :: E).take 8 = A := by
    have : A ++ 45 :: B ++ 45 :: C ++ 45 :: D ++ 45 :: E
        = A ++ (45 :: B ++ 45 :: C ++ 45 :: D ++ 45 :: E) := by simp [List.append_assoc]
    rw [this]
    exact List.take_left' lA
  have hd9 : (A ++ 45 :: B ++ 45 :: C ++ 45 :: D ++ 45 :: E).drop 9
      = B ++ 45 :: C ++ 45 :: D ++ 45 :: E := by
    have : A ++ 45 :: B ++ 45 :: C ++ 45 :: D ++ 45 :: E
        = (A ++ [45]) ++ (B ++ 45 :: C ++ 45 :: D ++ 45 :: E) := by simp [List.append_assoc]
    rw [this]
    exact List.drop_left' (by simp [lA])
  have hd14 : (A ++ 45 :: B ++ 45 :: C ++ 45 :: D ++ 45 :: E).drop 14
      = C ++ 45 :: D ++ 45 :: E := by
    have : A ++ 45 :: B ++ 45 :: C ++ 45 :: D ++ 45 :: E
        = (A ++ [45] ++ B ++ [45]) ++ (C ++ 45 :: D ++ 45 :: E) := by simp [List.append_assoc]
    rw [this]
    exact List.drop_left' (by simp [lA, lB])
  have hd19 : (A ++ 45 :: B ++ 45 :: C ++ 45 :: D ++ 45 :: E).drop 19
      = D ++ 45 :: E := by
    have : A ++ 45 :: B ++ 45 :: C ++ 45 :: D ++ 45 :: E
        = (A ++ [45] ++ B ++ [45] ++ C ++ [45]) ++ (D ++ 45 :: E) := by simp [List.append_assoc]
    rw [this]
    exact List.drop_left' (by simp [lA, lB, lC])
  have hd24 : (A ++ 45 :: B ++ 45 :: C ++ 45 :: D ++ 45 :: E).drop 24 = E := by
    have : A ++ 45 :: B ++ 45 :: C ++ 45 :: D ++ 45 :: E
        = (A ++ [45] ++ B ++ [45] ++ C ++ [45] ++ D ++ [45]) ++ E := by simp [List.append_assoc]
    rw [this]
    exact List.drop_left' (by simp [lA, lB, lC, lD])
  have htB : (B ++ 45 :: C ++ 45 :: D ++ 45 :: E).take 4 = B := by
    have : B ++ 45 :: C ++ 45 :: D ++ 45 :: E
        = B ++ (45 :: C ++ 45 :: D ++ 45 :: E) := by simp [List.append_assoc]
    rw [this]
    exact List.take_left' lB
  have htC : (C ++ 45 :: D ++ 45 :: E).take 4 = C := by
    have : C ++ 45 :: D ++ 45 :: E = C ++ (45 :: D ++ 45 :: E) := by simp [List.append_assoc]
    rw [this]
    exact List.take_left' lC
  have htD : (D ++ 45 :: E).take 4 = D := by
    exact List.take_left' lD
  simp only [uuidTryParse, ht8, hd9, hd14, hd19, hd24, htB, htC, htD, lE, and_true]
  rw [if_true, hreasm, hdd, fromHexAux_toHex]
  have h16 : (16 : Nat) ^ 32 = 2 ^ 128 := by norm_num
  rw [h16]
  have hu2 : u < 340282366920938463463374607431768211456 := by
    calc u < 2 ^ 128 := hu
    _ = 340282366920938463463374607431768211456 := by norm_num
  simp [Nat.mod_eq_of_lt hu2]

/-! Section-walk lemmas. -/

theorem toU32_lt {n : Nat} (h : n < 2 ^ 32) : toU32 n = n := Nat.mod_eq_of_lt h

theorem lebDecode_lt {bs : List Nat} {v c : Nat} (h : lebDecode bs = some (v, c)) : v < 2 ^ 32 := by
  unfold lebDecode at h
  cases hgo : lebDecodeGo 5 bs with
  | none => rw [hgo] at h; cases h
  | some p =>
    rw [hgo] at h
    by_cases hv : p.1 < 2 ^ 32
    · simp only [hv, if_true] at h
      cases h
      exact hv
    · simp only [hv, if_false] at h
      simp at h

theorem parseSecsGo_eq : ∀ f1 f2 bs off, bs.length ≤ f1 → bs.length ≤ f2 →
    parseSecsGo f1 bs off = parseSecsGo f2 bs off := by
  intro f1
  induction f1 with
  | zero =>
    intro f2 bs off h1 _
    have hb : bs = [] := List.eq_nil_of_length_eq_zero (by omega)
    subst hb
    cases f2 <;> rfl
  | succ f ih =>
    intro f2 bs off h1 h2
    cases bs with
    | nil => cases f2 <;> rfl
    | cons id rest =>
      obtain ⟨f2', rfl⟩ : ∃ f2', f2 = f2' + 1 := ⟨f2 - 1, by simp at h2; omega⟩
      simp only [parseSecsGo]
      by_cases hid : id ≤ 12
      · simp only [if_pos hid]
        cases hleb : lebDecode rest with
        | none => rfl
        | some p =>
          obtain ⟨size, k⟩ := p
          by_cases htr : rest.length < k + size
          · simp only [if_pos htr]
          · simp only [if_neg htr]
            have hlen : (rest.drop (k + size)).length ≤ f := by
              simp only [List.length_cons] at h1
              simp only [List.length_drop]
              omega
            have hlen2 : (rest.drop (k + size)).length ≤ f2' := by
              simp only [List.length_cons] at h2
              simp only [List.length_drop]
              omega
            rw [ih f2' _ _ hlen hlen2]
      · simp only [if_neg hid]

theorem parseSecs_nil (off : Nat) : parseSecs [] off = .ok [] := rfl

theorem parseSecs_cons_custom (contents rest : List Nat) (off : Nat)
    (name dat : List Nat) (hdr : Nat)
    (hc : customParse contents = .ok (name, dat, hdr)) (hlen : contents.length < 2 ^ 32) :
    parseSecs (rawSectionBytes 0 contents ++ rest) off =
      (parseSecs rest (off + 1 + (lebEncode contents.length).length + contents.length)).map
        (Sec.custom name dat contents (off + 1 + (lebEncode contents.length).length + hdr) :: ·) := by
  have hbytes : rawSectionBytes 0 contents ++ rest
      = 0 :: (lebEncode contents.length ++ (contents ++ rest)) := by
    simp [rawSectionBytes, toU32_lt hlen, List.append_assoc]
  have hlens : (lebEncode contents.length ++ (contents ++ rest)).length
      = (lebEncode contents.length).length + contents.length + rest.length := by
    simp
    omega
  have hdec := lebDecode_lebEncode contents.length hlen (contents ++ rest)
  have hntr : ¬ ((lebEncode contents.length ++ (contents ++ rest)).length
      < (lebEncode contents.length).length + contents.length) := by
    rw [hlens]
    omega
  have hdt : (lebEncode contents.length ++ (contents ++ rest)).drop
      (lebEncode contents.length).length = contents ++ rest := List.drop_left ..
  have hdrop2 : (lebEncode contents.length ++ (contents ++ rest)).drop
      ((lebEncode contents.length).length + contents.length) = rest := by
    have hassoc : lebEncode contents.length ++ (contents ++ rest)
        = (lebEncode contents.length ++ contents) ++ rest := by
      simp [List.append_assoc]
    rw [hassoc]
    exact List.drop_left' (by simp)
  unfold parseSecs
  rw [hbytes]
  simp only [List.length_cons, parseSecsGo]
  rw [if_pos (by omega : (0 : Nat) ≤ 12)]
  simp only [hdec, hntr, if_false, if_pos rfl, hdt, List.take_left, hdrop2, hc]
  rw [parseSecsGo_eq _ rest.length rest _ (by rw [hlens]; omega) (le_refl _)]
  rfl

theorem parseSecs_cons_other (id : Nat) (contents rest : List Nat) (off : Nat)
    (hid : id ≤ 12) (hid0 : id ≠ 0) (hlen : contents.length < 2 ^ 32) :
    parseSecs (rawSectionBytes id contents ++ rest) off =
      (parseSecs rest (off + 1 + (lebEncode contents.length).length + contents.length)).map
        (Sec.other id contents :: ·) := by
  have hbytes : rawSectionBytes id contents ++ rest
      = id :: (lebEncode contents.length ++ (contents ++ rest)) := by
    simp [rawSectionBytes, toU32_lt hlen, List.append_assoc]
  have hlens : (lebEncode contents.length ++ (contents ++ rest)).length
      = (lebEncode contents.length).length + contents.length + rest.length := by
    simp
    omega
  have hdec := lebDecode_lebEncode contents.length hlen (contents ++ rest)
  have hntr : ¬ ((lebEncode contents.length ++ (contents ++ rest)).length
      < (lebEncode contents.length).length + contents.length) := by
    rw [hlens]
    omega
  have hdt : (lebEncode contents.length ++ (contents ++ rest)).drop
      (lebEncode contents.length).length = contents ++ rest := List.drop_left ..
  have hdrop2 : (lebEncode contents.length ++ (contents ++ rest)).drop
      ((lebEncode contents.length).length + contents.length) = rest := by
    have hassoc : lebEncode contents.length ++ (contents ++ rest)
        = (lebEncode contents.length ++ contents) ++ rest := by
      simp [List.append_assoc]
    rw [hassoc]
    exact List.drop_left' (by simp)
  unfold parseSecs
  rw [hbytes]
  simp only [List.length_cons, parseSecsGo]
  rw [if_pos hid]
  simp only [hdec, hntr, if_false, if_neg hid0, hdt, List.take_left, hdrop2]
  rw [parseSecsGo_eq _ rest.length rest _ (by rw [hlens]; omega) (le_refl _)]

theorem parseModule_header (x : List Nat) : parseModule (HEADER ++ x) = parseSecs x 8 := by
  unfold parseModule
  rw [List.take_left' (show HEADER.length = 8 from rfl), if_pos rfl,
    List.drop_left' (show HEADER.length = 8 from rfl)]

/-! Nest-aware walk and `strip_module` lemmas. -/

theorem rawSectionBytes_length (id : Nat) (contents : List Nat) :
    (rawSectionBytes id contents).length
      = 1 + (lebEncode (toU32 contents.length)).length + contents.length := by
  simp [rawSectionBytes]
  omega

theorem parseNGo_eq : ∀ f1 f2 bs, bs.length ≤ f1 → bs.length ≤ f2 →
    parseNGo f1 bs = parseNGo f2 bs := by
  intro f1
  induction f1 with
  | zero =>
    intro f2 bs h1 _
    have hb : bs = [] := List.eq_nil_of_length_eq_zero (by omega)
    subst hb
    cases f2 <;> rfl
  | succ f ih =>
    intro f2 bs h1 h2
    cases bs with
    | nil => cases f2 <;> rfl
    | cons id rest =>
      obtain ⟨f2', rfl⟩ : ∃ f2', f2 = f2' + 1 := ⟨f2 - 1, by simp at h2; omega⟩
      simp only [parseNGo]
      by_cases hid : id ≤ 12
      · simp only [if_pos hid]
        cases hleb : lebDecode rest with
        | none => rfl
        | some p =>
          obtain ⟨size, k⟩ := p
          by_cases htr : rest.length < k + size
          · simp only [if_pos htr]
          · simp only [if_neg htr]
            have hlen : (rest.drop (k + size)).length ≤ f := by
              simp only [List.length_cons] at h1
              simp only [List.length_drop]
              omega
            have hlen2 : (rest.drop (k + size)).length ≤ f2' := by
              simp only [List.length_cons] at h2
              simp only [List.length_drop]
              omega
            have hclen : ((((rest.drop k).take size)).drop 8).length ≤ f := by
              simp only [List.length_cons] at h1
              simp only [List.length_drop, List.length_take]
              omega
            have hclen2 : ((((rest.drop k).take size)).drop 8).length ≤ f2' := by
              simp only [List.length_cons] at h2
              simp only [List.length_drop, List.length_take]
              omega
            rw [ih f2' _ hlen hlen2, ih f2' _ hclen hclen2]
      · simp only [if_neg hid]

/-- One step of the nest-aware walk on an emitted custom section. -/
theorem parseNGo_cons_custom (fuel : Nat) (contents restb : List Nat)
    (name dat : List Nat) (hdr : Nat)
    (hc : customParse contents = .ok (name, dat, hdr)) (hlen : contents.length < 2 ^ 32) :
    parseNGo (fuel + 1) (rawSectionBytes 0 contents ++ restb)
      = (parseNGo fuel restb).map (NSec.custom name dat contents :: ·) := by
  have hbytes : rawSectionBytes 0 contents ++ restb
      = 0 :: (lebEncode contents.length ++ (contents ++ restb)) := by
    simp [rawSectionBytes, toU32_lt hlen, List.append_assoc]
  have hdec := lebDecode_lebEncode contents.length hlen (contents ++ restb)
  have hlens : (lebEncode contents.length ++ (contents ++ restb)).length
      = (lebEncode contents.length).length + contents.length + restb.length := by
    simp
    omega
  have hntr : ¬ ((lebEncode contents.length ++ (contents ++ restb)).length
      < (lebEncode contents.length).length + contents.length) := by
    rw [hlens]
    omega
  have hdt : (lebEncode contents.length ++ (contents ++ restb)).drop
      (lebEncode contents.length).length = contents ++ restb := List.drop_left ..
  have hdrop2 : (lebEncode contents.length ++ (contents ++ restb)).drop
      ((lebEncode contents.length).length + contents.length) = restb := by
    have hassoc : lebEncode contents.length ++ (contents ++ restb)
        = (lebEncode contents.length ++ contents) ++ restb := by
      simp [List.append_assoc]
    rw [hassoc]
    exact List.drop_left' (by simp)
  rw [hbytes]
  simp only [parseNGo]
  rw [if_pos (by omega : (0 : Nat) ≤ 12)]
  simp only [hdec, hntr, if_false, if_pos rfl, hdt, List.take_left, hdrop2, hc]
  simp

/-- One step of the nest-aware walk on an emitted non-custom flat section. -/
theorem parseNGo_cons_other (fuel id : Nat) (contents restb : List Nat)
    (hid : id ≤ 12) (hid0 : id ≠ 0)
    (hmod : ¬ (id = 1 ∧ contents.take 8 = HEADER)) (hlen : contents.length < 2 ^ 32) :
    parseNGo (fuel + 1) (rawSectionBytes id contents ++ restb)
      = (parseNGo fuel restb).map (NSec.other id contents :: ·) := by
  have hbytes : rawSectionBytes id contents ++ restb
      = id :: (lebEncode contents.length ++ (contents ++ restb)) := by
    simp [rawSectionBytes, toU32_lt hlen, List.append_assoc]
  have hdec := lebDecode_lebEncode contents.length hlen (contents ++ restb)
  have hlens : (lebEncode contents.length ++ (contents ++ restb)).length
      = (lebEncode contents.length).length + contents.length + restb.length := by
    simp
    omega
  have hntr : ¬ ((lebEncode contents.length ++ (contents ++ restb)).length
      < (lebEncode contents.length).length + contents.length) := by
    rw [hlens]
    omega
  have hdt : (lebEncode contents.length ++ (contents ++ restb)).drop
      (lebEncode contents.length).length = contents ++ restb := List.drop_left ..
  have hdrop2 : (lebEncode contents.length ++ (contents ++ restb)).drop
      ((lebEncode contents.length).length + contents.length) = restb := by
    have hassoc : lebEncode contents.length ++ (contents ++ restb)
        = (lebEncode contents.length ++ contents) ++ restb := by
      simp [List.append_assoc]
    rw [hassoc]
    exact List.drop_left' (by simp)
  rw [hbytes]
  simp only [parseNGo]
  rw [if_pos hid]
  simp only [hdec, hntr, if_false, if_neg hid0, if_neg hmod, hdt, List.take_left, hdrop2]

/-- One step of the nest-aware walk on a re-framed core-module section. -/
theorem parseNGo_cons_module (fuel : Nat) (inner restb : List Nat) (subs : List NSec)
    (hin : parseNGo fuel inner = .ok subs)
    (hlen : (HEADER ++ inner).length < 2 ^ 32) :
    parseNGo (fuel + 1) (rawSectionBytes 1 (HEADER ++ inner) ++ restb)
      = (parseNGo fuel restb).map (NSec.module subs :: ·) := by
  have hbytes : rawSectionBytes 1 (HEADER ++ inner) ++ restb
      = 1 :: (lebEncode (HEADER ++ inner).length ++ ((HEADER ++ inner) ++ restb)) := by
    unfold rawSectionBytes
    rw [toU32_lt hlen]
    simp [List.append_assoc]
  have hdec := lebDecode_lebEncode (HEADER ++ inner).length hlen ((HEADER ++ inner) ++ restb)
  have hlens : (lebEncode (HEADER ++ inner).length ++ ((HEADER ++ inner) ++ restb)).length
      = (lebEncode (HEADER ++ inner).length).length + (HEADER ++ inner).length
        + restb.length := by
    simp
    omega
  have hntr : ¬ ((lebEncode (HEADER ++ inner).length ++ ((HEADER ++ inner) ++ restb)).length
      < (lebEncode (HEADER ++ inner).length).length + (HEADER ++ inner).length) := by
    rw [hlens]
    omega
  have hdt : (lebEncode (HEADER ++ inner).length ++ ((HEADER ++ inner) ++ restb)).drop
      (lebEncode (HEADER ++ inner).length).length = (HEADER ++ inner) ++ restb :=
    List.drop_left ..
  have hdrop2 : (lebEncode (HEADER ++ inner).length ++ ((HEADER ++ inner) ++ restb)).drop
      ((lebEncode (HEADER ++ inner).length).length + (HEADER ++ inner).length) = restb := by
    have hassoc : lebEncode (HEADER ++ inner).length ++ ((HEADER ++ inner) ++ restb)
        = (lebEncode (HEADER ++ inner).length ++ (HEADER ++ inner)) ++ restb := by
      simp [List.append_assoc]
    rw [hassoc]
    exact List.drop_left' (by simp)
  have htk8 : (HEADER ++ inner).take 8 = HEADER :=
    List.take_left' (show HEADER.length = 8 from rfl)
  have hdr8 : (HEADER ++ inner).drop 8 = inner :=
    List.drop_left' (show HEADER.length = 8 from rfl)
  rw [hbytes]
  simp only [parseNGo]
  rw [if_pos (by omega : (1 : Nat) ≤ 12)]
  simp only [hdec, hntr, if_false, hdt, List.take_left, hdrop2]
  rw [if_neg (by omega : ¬ (1 : Nat) = 0)]
  rw [if_pos ⟨by trivial, htk8⟩]
  rw [hdr8, hin]

/-- The nest-aware walk returns well-formed sections whose re-emission never
grows past the bytes it consumed (re-encoded sizes are canonical, hence
minimal). -/
theorem parseNGo_spec :
    ∀ fuel bs secs, parseNGo fuel bs = .ok secs →
      NSecOKs secs ∧ (emitNSecs secs).length ≤ bs.length := by
  intro fuel
  induction fuel with
  | zero =>
    intro bs secs h
    cases bs with
    | nil =>
      cases h
      refine ⟨by simp [NSecOKs], ?_⟩
      simp [emitNSecs]
    | cons b t => cases h
  | succ fuel ih =>
    intro bs secs h
    cases bs with
    | nil =>
      cases h
      refine ⟨by simp [NSecOKs], ?_⟩
      simp [emitNSecs]
    | cons id rest =>
      simp only [parseNGo] at h
      by_cases hid : id ≤ 12
      · rw [if_pos hid] at h
        cases hleb : lebDecode rest with
        | none => simp only [hleb] at h; cases h
        | some p =>
          obtain ⟨size, k⟩ := p
          simp only [hleb] at h
          by_cases htr : rest.length < k + size
          · rw [if_pos htr] at h
            cases h
          · rw [if_neg htr] at h
            have hsize : size < 2 ^ 32 := lebDecode_lt hleb
            have hmin : (lebEncode size).length ≤ k := lebDecode_min hleb
            have hclen : ((rest.drop k).take size).length = size := by
              simp only [List.length_take, List.length_drop]
              omega
            have htaillen : (rest.drop (k + size)).length = rest.length - (k + size) := by
              simp
            by_cases hid0 : id = 0
            · rw [if_pos hid0] at h
              cases hcp : customParse ((rest.drop k).take size) with
              | error e => simp only [hcp] at h; cases h
              | ok tri =>
                obtain ⟨name, dat, hdr⟩ := tri
                simp only [hcp] at h
                cases hrec : parseNGo fuel (rest.drop (k + size)) with
                | error e => rw [hrec] at h; simp [Except.map] at h
                | ok t =>
                  rw [hrec] at h
                  simp only [Except.map] at h
                  cases h
                  obtain ⟨hokt, hlent⟩ := ih _ _ hrec
                  refine ⟨?_, ?_⟩
                  · simp only [NSecOKs]
                    exact ⟨⟨by rw [hclen]; exact hsize, hdr, hcp⟩, hokt⟩
                  simp only [emitNSecs, List.length_cons]
                  by_cases hasset :
                      (manifestTag.isPrefixOf name || dataTag.isPrefixOf name) = true
                  · rw [if_pos hasset]
                    simp only [List.nil_append]
                    omega
                  · rw [if_neg hasset]
                    simp only [List.length_append, rawSectionBytes_length, hclen,
                      toU32_lt hsize]
                    omega
            · rw [if_neg hid0] at h
              by_cases hmod : id = 1 ∧ ((rest.drop k).take size).take 8 = HEADER
              · rw [if_pos hmod] at h
                cases hsub : parseNGo fuel (((rest.drop k).take size).drop 8) with
                | error e => rw [hsub] at h; cases h
                | ok subs =>
                  rw [hsub] at h
                  cases hrec : parseNGo fuel (rest.drop (k + size)) with
                  | error e => rw [hrec] at h; simp [Except.map] at h
                  | ok t =>
                    rw [hrec] at h
                    simp only [Except.map] at h
                    cases h
                    obtain ⟨hoksub, hlensub⟩ := ih _ _ hsub
                    obtain ⟨hokt, hlent⟩ := ih _ _ hrec
                    have h8 : 8 ≤ size := by
                      have h' : (((rest.drop k).take size).take 8).length = 8 := by
                        rw [hmod.2]
                        rfl
                      simp only [List.length_take] at h'
                      omega
                    have hsublen : ((((rest.drop k).take size)).drop 8).length = size - 8 := by
                      simp only [List.length_drop, hclen]
                    have hinlen : (HEADER ++ emitNSecs subs).length
                        = 8 + (emitNSecs subs).length := by
                      rw [List.length_append, show HEADER.length = 8 from rfl]
                    have hinle : (HEADER ++ emitNSecs subs).length ≤ size := by
                      omega
                    have hmono : (lebEncode (HEADER ++ emitNSecs subs).length).length
                        ≤ (lebEncode size).length := lebEncode_length_mono hinle
                    refine ⟨?_, ?_⟩
                    · simp only [NSecOKs]
                      exact ⟨⟨by omega, hoksub⟩, hokt⟩
                    have hemitm : emitNSecs (NSec.module subs :: t)
                        = rawSectionBytes 1 (HEADER ++ emitNSecs subs) ++ emitNSecs t := by
                      simp [emitNSecs]
                    rw [hemitm, List.length_append, rawSectionBytes_length,
                      toU32_lt (show (HEADER ++ emitNSecs subs).length < 2 ^ 32 by omega)]
                    simp only [List.length_cons]
                    omega
              · rw [if_neg hmod] at h
                cases hrec : parseNGo fuel (rest.drop (k + size)) with
                | error e => rw [hrec] at h; simp [Except.map] at h
                | ok t =>
                  rw [hrec] at h
                  simp only [Except.map] at h
                  cases h
                  obtain ⟨hokt, hlent⟩ := ih _ _ hrec
                  refine ⟨?_, ?_⟩
                  · simp only [NSecOKs]
                    exact ⟨⟨by rw [hclen]; exact hsize, hid, hid0, hmod⟩, hokt⟩
                  simp only [emitNSecs, List.length_cons, List.length_append,
                    rawSectionBytes_length, hclen, toU32_lt hsize]
                  omega
      · rw [if_neg hid] at h
        cases h

theorem filterN_length_le : ∀ secs, (filterN secs).length ≤ secs.length := by
  intro secs
  induction secs with
  | nil => simp [filterN]
  | cons s t ih =>
    cases s with
    | custom name dat contents =>
      by_cases hp : (manifestTag.isPrefixOf name || dataTag.isPrefixOf name) = true
      · simp only [filterN, if_pos hp, List.length_cons]
        omega
      · simp only [filterN, if_neg hp, List.length_cons]
        omega
    | other id contents =>
      simp only [filterN, List.length_cons]
      omega
    | module subs =>
      simp only [filterN, List.length_cons]
      omega

theorem emitNSecs_eq_nil :
    ∀ secs, filterN secs = secs → emitNSecs secs = [] → secs = [] := by
  intro secs hfil hemit
  cases secs with
  | nil => rfl
  | cons s t =>
    cases s with
    | custom name dat contents =>
      by_cases hp : (manifestTag.isPrefixOf name || dataTag.isPrefixOf name) = true
      · exfalso
        simp only [filterN, if_pos hp] at hfil
        have hle := filterN_length_le t
        rw [hfil] at hle
        simp at hle
      · simp only [emitNSecs, if_neg hp] at hemit
        simp [rawSectionBytes] at hemit
    | other id contents =>
      simp [emitNSecs, rawSectionBytes] at hemit
    | module subs =>
      simp [emitNSecs, rawSectionBytes] at hemit

theorem emit_filterN : ∀ secs, emitNSecs (filterN secs) = emitNSecs secs := by
  intro secs
  induction secs using filterN.induct with
  | case1 => simp [filterN]
  | case2 name dat contents t hp ih =>
    simp only [filterN, if_pos hp]
    rw [ih]
    simp [emitNSecs, hp]
  | case3 name dat contents t hp ih =>
    simp only [filterN, if_neg hp]
    simp only [emitNSecs, if_neg hp, ih]
  | case4 id contents t ih =>
    simp only [filterN, emitNSecs, ih]
  | case5 subs t ih1 ih2 =>
    simp only [filterN, emitNSecs, ih1, ih2]

theorem filterN_idem : ∀ secs, filterN (filterN secs) = filterN secs := by
  intro secs
  induction secs using filterN.induct with
  | case1 => simp [filterN]
  | case2 name dat contents t hp ih =>
    simp only [filterN, if_pos hp]
    exact ih
  | case3 name dat contents t hp ih =>
    simp only [filterN, if_neg hp, ih]
  | case4 id contents t ih =>
    simp only [filterN, ih]
  | case5 subs t ih1 ih2 =>
    simp only [filterN, ih1, ih2]

theorem NSecOKs_filterN : ∀ secs, NSecOKs secs → NSecOKs (filterN secs) := by
  intro secs
  induction secs using filterN.induct with
  | case1 => intro h; simp [filterN, NSecOKs]
  | case2 name dat contents t hp ih =>
    intro h
    simp only [NSecOKs] at h
    simp only [filterN, if_pos hp]
    exact ih h.2
  | case3 name dat contents t hp ih =>
    intro h
    simp only [NSecOKs] at h
    simp only [filterN, if_neg hp, NSecOKs]
    exact ⟨h.1, ih h.2⟩
  | case4 id contents t ih =>
    intro h
    simp only [NSecOKs] at h
    simp only [filterN, NSecOKs]
    exact ⟨h.1, ih h.2⟩
  | case5 subs t ih1 ih2 =>
    intro h
    simp only [NSecOKs] at h
    simp only [filterN, NSecOKs]
    refine ⟨⟨?_, ih1 h.1.2⟩, ih2 h.2⟩
    rw [emit_filterN subs]
    exact h.1.1

/-- Re-parsing the strip output of kept well-formed sections reproduces them
exactly, at every nesting depth. -/
theorem parseN_emit :
    ∀ fuel secs rest, NSecOKs secs → filterN secs = secs →
      (emitNSecs secs ++ rest).length ≤ fuel →
      parseNGo fuel (emitNSecs secs ++ rest)
        = (parseNGo rest.length rest).map (secs ++ ·) := by
  intro fuel
  induction fuel with
  | zero =>
    intro secs rest hok hfil hlen
    simp only [List.length_append] at hlen
    have hrest : rest = [] := List.eq_nil_of_length_eq_zero (by omega)
    have hemit : emitNSecs secs = [] := List.eq_nil_of_length_eq_zero (by omega)
    have hsecs : secs = [] := emitNSecs_eq_nil secs hfil hemit
    subst hrest
    subst hsecs
    rw [hemit]
    rfl
  | succ fuel ih =>
    intro secs rest hok hfil hlen
    cases secs with
    | nil =>
      rw [show emitNSecs [] = [] from by simp [emitNSecs]] at hlen ⊢
      simp only [List.nil_append] at hlen ⊢
      rw [parseNGo_eq (fuel + 1) rest.length rest hlen (le_refl _)]
      cases hr : parseNGo rest.length rest with
      | ok t => simp [Except.map]
      | error e => simp [Except.map]
    | cons s t =>
      cases s with
      | custom name dat contents =>
        simp only [NSecOKs] at hok
        obtain ⟨⟨hclen, hdr, hcp⟩, hokt⟩ := hok
        by_cases hp : (manifestTag.isPrefixOf name || dataTag.isPrefixOf name) = true
        · exfalso
          simp only [filterN, if_pos hp] at hfil
          have hle := filterN_length_le t
          rw [hfil] at hle
          simp at hle
        · have hfil' : filterN t = t := by
            simp only [filterN, if_neg hp] at hfil
            injection hfil
          have htail : (emitNSecs t ++ rest).length ≤ fuel := by
            simp only [emitNSecs, if_neg hp, List.length_append,
              rawSectionBytes_length] at hlen
            simp only [List.length_append]
            omega
          simp only [emitNSecs, if_neg hp]
          rw [List.append_assoc]
          rw [parseNGo_cons_custom fuel contents (emitNSecs t ++ rest) name dat hdr hcp hclen]
          rw [ih t rest hokt hfil' htail]
          cases hr : parseNGo rest.length rest with
          | ok x => simp [Except.map]
          | error e => simp [Except.map]
      | other id contents =>
        simp only [NSecOKs] at hok
        obtain ⟨⟨hclen, hid, hid0, hmod⟩, hokt⟩ := hok
        have hfil' : filterN t = t := by
          simp only [filterN] at hfil
          injection hfil
        have htail : (emitNSecs t ++ rest).length ≤ fuel := by
          simp only [emitNSecs, List.length_append, rawSectionBytes_length] at hlen
          simp only [List.length_append]
          omega
        simp only [emitNSecs]
        rw [List.append_assoc]
        rw [parseNGo_cons_other fuel id contents (emitNSecs t ++ rest) hid hid0 hmod hclen]
        rw [ih t rest hokt hfil' htail]
        cases hr : parseNGo rest.length rest with
        | ok x => simp [Except.map]
        | error e => simp [Except.map]
      | module subs =>
        simp only [NSecOKs] at hok
        obtain ⟨⟨hilen, hoks⟩, hokt⟩ := hok
        have hfil2 : filterN subs = subs ∧ filterN t = t := by
          simp only [filterN] at hfil
          injection hfil with h1 h2
          refine ⟨?_, h2⟩
          injection h1
        have hH : (HEADER ++ emitNSecs subs).length = 8 + (emitNSecs subs).length := by
          rw [List.length_append, show HEADER.length = 8 from rfl]
        have hpos : 1 ≤ (lebEncode (toU32 (HEADER ++ emitNSecs subs).length)).length :=
          lebEncodeGo_length_pos 5 _
        have he : emitNSecs (NSec.module subs :: t)
            = rawSectionBytes 1 (HEADER ++ emitNSecs subs) ++ emitNSecs t := by
          simp [emitNSecs]
        rw [he, List.append_assoc] at hlen
        rw [List.length_append] at hlen
        rw [List.length_append] at hlen
        rw [rawSectionBytes_length] at hlen
        have hsubs : (emitNSecs subs ++ ([] : List Nat)).length ≤ fuel := by
          simp only [List.append_nil]
          omega
        have hin := ih subs [] hoks hfil2.1 hsubs
        rw [List.append_nil] at hin
        simp only [List.length_nil] at hin
        rw [show parseNGo 0 ([] : List Nat) = .ok [] from rfl] at hin
        simp only [Except.map, List.append_nil] at hin
        have htail : (emitNSecs t ++ rest).length ≤ fuel := by
          simp only [List.length_append]
          omega
        simp only [emitNSecs]
        rw [List.append_assoc]
        rw [parseNGo_cons_module fuel (emitNSecs subs) (emitNSecs t ++ rest) subs hin hilen]
        rw [ih t rest hokt hfil2.2 htail]
        cases hr : parseNGo rest.length rest with
        | ok x => simp [Except.map]
        | error e => simp [Except.map]

/-- The source-side emission agrees with the amended C5 description. -/
theorem stripSpecN_emit : ∀ secs, stripSpecN secs = emitNSecs secs := by
  intro secs
  induction secs using filterN.induct with
  | case1 => simp [stripSpecN, emitNSecs]
  | case2 name dat contents t hp ih =>
    simp only [stripSpecN, emitNSecs, isAssetNSec, hp, if_true, ih]
  | case3 name dat contents t hp ih =>
    simp only [stripSpecN, emitNSecs, isAssetNSec, NSec.tagByte, NSec.rawContents, ih,
      rawSectionBytes]
  | case4 id contents t ih =>
    simp only [stripSpecN, emitNSecs, isAssetNSec, NSec.tagByte, NSec.rawContents, ih,
      rawSectionBytes]
    simp
  | case5 subs t ih1 ih2 =>
    simp only [stripSpecN, emitNSecs, NSec.tagByte, ih1, ih2, rawSectionBytes]

/-- C4: for every module buffer on which `strip_module` succeeds — including
buffers with nested core modules, handled by the `Payload::ModuleSection` /
`Payload::End` stack — running `strip_module` again on the stripped output
succeeds and returns the output byte-identically. -/
theorem strip_module_idempotent (m out : List Nat) (h : stripModule m = .ok out) :
    stripModule out = .ok out := by
  unfold stripModule at h
  cases hpm : parseNModule m with
  | error e => rw [hpm] at h; cases h
  | ok secs =>
    rw [hpm] at h
    cases h
    have hok : NSecOKs secs := by
      unfold parseNModule at hpm
      by_cases hh : m.take 8 = HEADER
      · rw [if_pos hh] at hpm
        exact (parseNGo_spec _ _ _ hpm).1
      · rw [if_neg hh] at hpm
        cases hpm
    unfold stripModule parseNModule
    rw [List.take_left' (show HEADER.length = 8 from rfl), if_pos rfl,
      List.drop_left' (show HEADER.length = 8 from rfl)]
    unfold parseN
    have hemit : emitNSecs (filterN secs) = emitNSecs secs := emit_filterN secs
    have hpe := parseN_emit (emitNSecs secs).length (filterN secs) []
      (NSecOKs_filterN secs hok) (filterN_idem secs)
      (by rw [List.append_nil, hemit])
    rw [List.append_nil, hemit] at hpe
    have hres : parseNGo (emitNSecs secs).length (emitNSecs secs) = .ok (filterN secs) := by
      rw [hpe]
      simp only [List.length_nil]
      rw [show parseNGo 0 ([] : List Nat) = .ok [] from rfl]
      simp [Except.map]
    simp only [hres]
    rw [hemit]

/-- Kept sections of the module at the demo bytes used by the C4 witness and
the C5 counterexample: one nested core module holding one manifest-tagged
custom section. -/
theorem stripModule_nested_demo :
    stripModule (HEADER ++ ([1, 29] ++ (HEADER ++ ([0, 19, 18] ++ manifestTag))))
      = .ok (HEADER ++ ([1, 8] ++ HEADER)) := by
  have hp : parseNModule (HEADER ++ ([1, 29] ++ (HEADER ++ ([0, 19, 18] ++ manifestTag))))
      = .ok [NSec.module [NSec.custom manifestTag [] ([18] ++ manifestTag)]] := rfl
  have hpref : (manifestTag.isPrefixOf manifestTag || dataTag.isPrefixOf manifestTag)
      = true := by decide
  unfold stripModule
  simp only [hp]
  simp only [emitNSecs, hpref, if_true, List.append_nil, List.nil_append, rawSectionBytes]
  rfl

/-- Witness for C4: a module holding one nested core module that wraps one
manifest-tagged custom section strips to a rebuilt frame, and stripping the
stripped output is the identity. -/
theorem strip_module_idempotent_witness :
    stripModule (HEADER ++ ([1, 29] ++ (HEADER ++ ([0, 19, 18] ++ manifestTag))))
        = .ok (HEADER ++ ([1, 8] ++ HEADER)) ∧
      stripModule (HEADER ++ ([1, 8] ++ HEADER)) = .ok (HEADER ++ ([1, 8] ++ HEADER)) :=
  ⟨stripModule_nested_demo,
    strip_module_idempotent (HEADER ++ ([1, 29] ++ (HEADER ++ ([0, 19, 18] ++ manifestTag))))
      (HEADER ++ ([1, 8] ++ HEADER)) stripModule_nested_demo⟩

/-- C5 (amended): `strip_module` emits, at every nesting depth, exactly the
non-asset-tagged sections in their original order; a flat section keeps its
original tag byte and its original raw contents behind a re-encoded size,
while a nested module section is rebuilt as a freshly framed core-module
section holding the fixed header and its recursively stripped stream. -/
theorem strip_module_selective (m : List Nat) (secs : List NSec)
    (h : parseNModule m = .ok secs) :
    stripModule m = .ok (HEADER ++ stripSpecN secs) := by
  unfold stripModule
  simp only [h]
  rw [stripSpecN_emit]

/-- Counterexample for C5 as stated: a nested core module wrapping one
manifest-tagged custom section is itself kept (it is not an asset-tagged
custom section), yet `strip_module` does not copy it byte-for-byte from its
original raw range — it rebuilds the frame with the inner asset section
removed. -/
theorem strip_module_selective_cex :
    parseNModule (HEADER ++ ([1, 29] ++ (HEADER ++ ([0, 19, 18] ++ manifestTag))))
        = .ok [NSec.module [NSec.custom manifestTag [] ([18] ++ manifestTag)]] ∧
      isAssetNSec (NSec.module [NSec.custom manifestTag [] ([18] ++ manifestTag)]) = false ∧
      keepNSec (NSec.module [NSec.custom manifestTag [] ([18] ++ manifestTag)]) = true ∧
      stripModule (HEADER ++ ([1, 29] ++ (HEADER ++ ([0, 19, 18] ++ manifestTag))))
        = .ok (HEADER ++ ([1, 8] ++ HEADER)) ∧
      HEADER ++ ([1, 8] ++ HEADER)
        ≠ HEADER ++ ([1, 29] ++ (HEADER ++ ([0, 19, 18] ++ manifestTag))) :=
  ⟨rfl, rfl, rfl, stripModule_nested_demo, by decide⟩

/-- Witness for C5 (amended): a module with one manifest-tagged custom
section, one unrelated custom section, one non-custom section and one nested
core module keeps everything but the asset section, flat sections
byte-for-byte and the nested module re-framed. -/
theorem strip_module_selective_witness :
    parseNModule (HEADER ++ (([0, 19, 18] ++ manifestTag) ++ ([0, 4, 1, 97, 5, 6]
          ++ ([3, 1, 9] ++ ([1, 10] ++ (HEADER ++ [3, 0]))))))
        = .ok [NSec.custom manifestTag [] ([18] ++ manifestTag),
            NSec.custom [97] [5, 6] [1, 97, 5, 6], NSec.other 3 [9],
            NSec.module [NSec.other 3 []]] ∧
      stripModule (HEADER ++ (([0, 19, 18] ++ manifestTag) ++ ([0, 4, 1, 97, 5, 6]
          ++ ([3, 1, 9] ++ ([1, 10] ++ (HEADER ++ [3, 0]))))))
        = .ok (HEADER ++ stripSpecN [NSec.custom manifestTag [] ([18] ++ manifestTag),
            NSec.custom [97] [5, 6] [1, 97, 5, 6], NSec.other 3 [9],
            NSec.module [NSec.other 3 []]]) ∧
      stripSpecN [NSec.custom manifestTag [] ([18] ++ manifestTag),
            NSec.custom [97] [5, 6] [1, 97, 5, 6], NSec.other 3 [9],
            NSec.module [NSec.other 3 []]]
        = [0, 4, 1, 97, 5, 6] ++ ([3, 1, 9] ++ ([1, 10] ++ (HEADER ++ [3, 0]))) :=
  ⟨rfl,
    strip_module_selective
      (HEADER ++ (([0, 19, 18] ++ manifestTag) ++ ([0, 4, 1, 97, 5, 6]
        ++ ([3, 1, 9] ++ ([1, 10] ++ (HEADER ++ [3, 0]))))))
      [NSec.custom manifestTag [] ([18] ++ manifestTag),
        NSec.custom [97] [5, 6] [1, 97, 5, 6], NSec.other 3 [9],
        NSec.module [NSec.other 3 []]] rfl,
    by
      have hpref : (manifestTag.isPrefixOf manifestTag || dataTag.isPrefixOf manifestTag)
          = true := by decide
      have hpref2 : (manifestTag.isPrefixOf [97] || dataTag.isPrefixOf [97]) = false := by
        decide
      simp only [stripSpecN, isAssetNSec, NSec.tagByte, NSec.rawContents, hpref, hpref2,
        if_true, Bool.false_eq_true, if_false, List.append_nil, List.nil_append]
      rfl⟩

/-- C8: for every parser and every ID whose manifest range does not lie
entirely within the module buffer (or has start past end), `load` and
`load_raw` both fail with the `Deserialize` "index out of range" error rather
than returning a truncated or empty result. -/
theorem load_out_of_range {A : Type} (deser : List Nat → Except WassetError A)
    (p : WassetParser) (id : Nat) (r : Rng)
    (hm : lookupA id p.manifest = some r)
    (hbad : ¬ (r.start ≤ r.stop ∧ r.stop ≤ p.module.length)) :
    load deser p id = .error (.deserialize "index out of range") ∧
      loadRaw p id = .error (.deserialize "index out of range") := by
  unfold load loadRaw loadByRange
  simp only [hm, if_neg hbad]
  exact ⟨trivial, trivial⟩

/-- Witness for C8: a parser obtained from a manifest-only embedding whose
single range `[0, 99)` exceeds the 90-byte module. -/
theorem load_out_of_range_witness :
    WassetParser.parse
        (HEADER ++ rawSectionBytes 0
          (lebEncode 54 ++ (manifestTag ++ uuidStr 0) ++ manifestSer [(7, ⟨0, 99⟩)]))
      = .ok ⟨[(7, ⟨0, 99⟩)],
          HEADER ++ rawSectionBytes 0
            (lebEncode 54 ++ (manifestTag ++ uuidStr 0) ++ manifestSer [(7, ⟨0, 99⟩)])⟩ ∧
    lookupA 7 ([(7, (⟨0, 99⟩ : Rng))]) = some ⟨0, 99⟩ ∧
    ¬ ((0 : Nat) ≤ 99 ∧ 99 ≤ (HEADER ++ rawSectionBytes 0
          (lebEncode 54 ++ (manifestTag ++ uuidStr 0) ++ manifestSer [(7, ⟨0, 99⟩)])).length) ∧
    load (fun bs => .ok bs)
        ⟨[(7, ⟨0, 99⟩)],
          HEADER ++ rawSectionBytes 0
            (lebEncode 54 ++ (manifestTag ++ uuidStr 0) ++ manifestSer [(7, ⟨0, 99⟩)])⟩ 7
      = .error (.deserialize "index out of range") ∧
    loadRaw
        ⟨[(7, ⟨0, 99⟩)],
          HEADER ++ rawSectionBytes 0
            (lebEncode 54 ++ (manifestTag ++ uuidStr 0) ++ manifestSer [(7, ⟨0, 99⟩)])⟩ 7
      = .error (.deserialize "index out of range") :=
  ⟨by decide, by decide, by decide,
    (load_out_of_range (fun bs => .ok bs) _ 7 ⟨0, 99⟩ (by decide) (by decide)).1,
    (load_out_of_range (fun bs => .ok bs) _ 7 ⟨0, 99⟩ (by decide) (by decide)).2⟩

/-- C9: for every parser, an ID absent from the merged manifest makes `load`
and `load_raw` return `Ok(None)`, never an error. -/
theorem load_not_found {A : Type} (deser : List Nat → Except WassetError A)
    (p : WassetParser) (id : Nat)
    (hm : lookupA id p.manifest = none) :
    load deser p id = .ok none ∧ loadRaw p id = .ok none := by
  unfold load loadRaw
  simp only [hm]
  exact ⟨trivial, trivial⟩

/-- Witness for C9: the parser of a bare (header-only) module holds an empty
manifest, and any ID is absent. -/
theorem load_not_found_witness :
    WassetParser.parse HEADER = .ok ⟨[], HEADER⟩ ∧
    lookupA 5 ([] : List (Nat × Rng)) = none ∧
    load (fun bs => .ok bs) ⟨[], HEADER⟩ 5 = .ok none ∧
    loadRaw ⟨[], HEADER⟩ 5 = .ok none :=
  ⟨by decide, by decide,
    (load_not_found (fun bs => .ok bs) ⟨[], HEADER⟩ 5 (by decide)).1,
    (load_not_found (fun bs => .ok bs) ⟨[], HEADER⟩ 5 (by decide)).2⟩

/-- C10: `load` is `load_raw` followed by deserializing the raw item —
`Ok(None)` on an absent ID, the identical error on an out-of-range reference,
and `Ok(Some a)` exactly when the raw item deserializes to `a`. -/
theorem load_eq_loadRaw_deserialize {A : Type} (deser : List Nat → Except WassetError A)
    (p : WassetParser) (id : Nat) :
    load deser p id =
      (loadRaw p id).bind fun o =>
        match o with
        | some it => (WassetItem.deserialize deser it).map some
        | none => .ok none := by
  unfold load loadRaw
  cases hm : lookupA id p.manifest with
  | none => rfl
  | some r =>
    cases hlr : loadByRange p r with
    | ok it =>
      simp only [hlr]
      cases hd : WassetItem.deserialize deser it with
      | ok a => simp [hd, Except.bind, Except.map]
      | error e => simp [hd, Except.bind, Except.map]
    | error e => simp [hlr, Except.bind]


theorem embKeys_cons (p : Nat × WassetOffsets) (t : List (Nat × WassetOffsets)) :
    embKeys (p :: t) =
      (match manifestDeser p.2.manifest with
        | .ok inst => inst.map Prod.fst
        | .error _ => []) ++ embKeys t := by
  simp [embKeys]

theorem shiftedOf_keys (p : Nat × WassetOffsets) :
    (shiftedOf p).map Prod.fst =
      match manifestDeser p.2.manifest with
      | .ok inst => inst.map Prod.fst
      | .error _ => [] := by
  unfold shiftedOf
  cases manifestDeser p.2.manifest with
  | ok inst => simp
  | error e => simp

/-- Successful merge of fresh, pairwise-distinct keys appends each embedding's
shifted entries in order. -/
theorem collect_flat :
    ∀ (offs : List (Nat × WassetOffsets)) (init M : List (Nat × Rng)),
      (embKeys offs).Nodup →
      (∀ k ∈ embKeys offs, k ∉ init.map Prod.fst) →
      offs.foldlM collectStep init = .ok M →
      M = init ++ offs.flatMap shiftedOf := by
  intro offs
  induction offs with
  | nil =>
    intro init M _ _ h
    simp only [List.foldlM_nil] at h
    cases h
    simp
  | cons p t ih =>
    intro init M hnd habs h
    rw [embKeys_cons] at hnd habs
    simp only [List.foldlM_cons] at h
    cases hdeser : manifestDeser p.2.manifest with
    | error e =>
      rw [collectStep, hdeser] at h
      have h' : (Except.error e : Except WassetError (List (Nat × Rng))) = .ok M := h
      cases h'
    | ok inst =>
      rw [hdeser] at hnd habs
      have hinstnd : (inst.map Prod.fst).Nodup := (List.nodup_append.mp hnd).1
      have htnd : (embKeys t).Nodup := (List.nodup_append.mp hnd).2.1
      have hdisj : ∀ k ∈ inst.map Prod.fst, k ∉ embKeys t := by
        intro k hk
        exact fun hk2 => (List.nodup_append.mp hnd).2.2 hk hk2
      have hstep : collectStep init p
          = .ok (init ++ inst.map fun q =>
              (q.1, (⟨toU32 (q.2.start + p.2.dataOff), toU32 (q.2.stop + p.2.dataOff)⟩ : Rng))) := by
        rw [collectStep, hdeser]
        simp only [Except.map]
        congr 1
        exact foldl_insertA _ inst init hinstnd
          (fun q hq => habs q.1 (List.mem_append_left _ (List.mem_map.mpr ⟨q, hq, rfl⟩)))
      rw [hstep] at h
      have h2 : t.foldlM collectStep
          (init ++ inst.map fun q =>
            (q.1, (⟨toU32 (q.2.start + p.2.dataOff), toU32 (q.2.stop + p.2.dataOff)⟩ : Rng))) = .ok M := h
      have hIH := ih _ M htnd ?_ h2
      · rw [hIH]
        simp only [List.flatMap_cons, List.append_assoc]
        congr 2
        unfold shiftedOf
        rw [hdeser]
      · intro k hk
        simp only [List.map_append, List.mem_append]
        push_neg
        refine ⟨habs k (List.mem_append_right _ hk), ?_⟩
        intro hmem
        have : k ∈ inst.map Prod.fst := by
          rcases List.mem_map.mp hmem with ⟨q, hq, rfl⟩
          rcases List.mem_map.mp hq with ⟨w, hw, rfl⟩
          exact List.mem_map.mpr ⟨w, hw, rfl⟩
        exact hdisj k this hk

theorem collectManifests_flat (offs : List (Nat × WassetOffsets)) (M : List (Nat × Rng))
    (hnd : (embKeys offs).Nodup) (h : collectManifests offs = .ok M) :
    M = offs.flatMap shiftedOf := by
  have := collect_flat offs [] M hnd (by simp) h
  simpa using this

theorem flatMap_shiftedOf_keys (offs : List (Nat × WassetOffsets)) :
    (offs.flatMap shiftedOf).map Prod.fst = embKeys offs := by
  induction offs with
  | nil => rfl
  | cons p t ih =>
    simp only [List.flatMap_cons, List.map_append, ih, embKeys_cons, shiftedOf_keys]

/-- C2 (amended): a successful merge over embeddings with pairwise-distinct
asset IDs maps every deserialized `(id, range)` entry of every embedding to
the merged entry `(id, (range.start + data_offset) mod 2^32 ..
(range.end + data_offset) mod 2^32)`; no entry is lost or overwritten. -/
theorem collect_manifests_merge (offs : List (Nat × WassetOffsets)) (M : List (Nat × Rng))
    (hM : collectManifests offs = .ok M)
    (hnd : (embKeys offs).Nodup)
    (u : Nat) (rec : WassetOffsets) (hrec : (u, rec) ∈ offs)
    (inst : List (Nat × Rng)) (hinst : manifestDeser rec.manifest = .ok inst)
    (id : Nat) (r : Rng) (hin : (id, r) ∈ inst) :
    lookupA id M = some ⟨toU32 (r.start + rec.dataOff), toU32 (r.stop + rec.dataOff)⟩ := by
  have hflat := collectManifests_flat offs M hnd hM
  subst hflat
  apply mem_lookupA
  · rw [flatMap_shiftedOf_keys]
    exact hnd
  · apply List.mem_flatMap.mpr
    refine ⟨(u, rec), hrec, ?_⟩
    unfold shiftedOf
    simp only [hinst]
    exact List.mem_map.mpr ⟨(id, r), hin, rfl⟩

/-- Counterexample for C2 as stated: with data offset `2^32 - 1` the merged
range is the wrapped sum, not the plain sum, of the local range and the
offset. -/
theorem collect_manifests_merge_cex :
    collectManifests [(0, ⟨2 ^ 32 - 1, manifestSer [(7, ⟨1, 2⟩)]⟩)] = .ok [(7, ⟨0, 1⟩)] ∧
      lookupA 7 [(7, (⟨0, 1⟩ : Rng))] ≠ some ⟨1 + (2 ^ 32 - 1), 2 + (2 ^ 32 - 1)⟩ := by
  constructor
  · decide
  · decide

/-- Witness for C2 (amended) at a concrete in-range embedding. -/
theorem collect_manifests_merge_witness :
    collectManifests [(0, ⟨10, manifestSer [(7, ⟨1, 2⟩)]⟩)] = .ok [(7, ⟨11, 12⟩)] ∧
      (embKeys [(0, ⟨10, manifestSer [(7, ⟨1, 2⟩)]⟩)]).Nodup ∧
      manifestDeser (manifestSer [(7, ⟨1, 2⟩)]) = .ok [(7, ⟨1, 2⟩)] ∧
      lookupA 7 [(7, (⟨11, 12⟩ : Rng))] = some ⟨toU32 (1 + 10), toU32 (2 + 10)⟩ :=
  ⟨by decide, by decide, by decide,
    collect_manifests_merge [(0, ⟨10, manifestSer [(7, ⟨1, 2⟩)]⟩)] [(7, ⟨11, 12⟩)]
      (by decide) (by decide) 0 ⟨10, manifestSer [(7, ⟨1, 2⟩)]⟩ (by decide)
      [(7, ⟨1, 2⟩)] (by decide) 7 ⟨1, 2⟩ (by decide)⟩

theorem except_bind_ok {ε α β : Type} (a : α) (f : α → Except ε β) :
    (Except.ok a : Except ε α) >>= f = f a := rfl

theorem except_bind_error {ε α β : Type} (e : ε) (f : α → Except ε β) :
    (Except.error e : Except ε α) >>= f = .error e := rfl

theorem collectStep_error (man : List (Nat × Rng)) (p : Nat × WassetOffsets) (e : WassetError)
    (h : collectStep man p = .error e) : manifestDeser p.2.manifest = .error e := by
  unfold collectStep at h
  cases hd : manifestDeser p.2.manifest with
  | ok inst => rw [hd] at h; cases h
  | error e' =>
    rw [hd] at h
    cases h
    rfl

theorem collect_error_kind :
    ∀ (offs : List (Nat × WassetOffsets)) (init : List (Nat × Rng)) (e : WassetError),
      offs.foldlM collectStep init = .error e → ∃ msg, e = .deserialize msg := by
  intro offs
  induction offs with
  | nil =>
    intro init e h
    simp only [List.foldlM_nil] at h
    cases h
  | cons p t ih =>
    intro init e h
    simp only [List.foldlM_cons] at h
    cases hstep : collectStep init p with
    | error e' =>
      rw [hstep, except_bind_error] at h
      cases h
      exact manifestDeser_error_kind _ _ (collectStep_error init p _ hstep)
    | ok man' =>
      rw [hstep, except_bind_ok] at h
      exact ih man' e h

theorem collect_ok_deser :
    ∀ (offs : List (Nat × WassetOffsets)) (init M : List (Nat × Rng)),
      offs.foldlM collectStep init = .ok M →
      ∀ q ∈ offs, ∃ inst, manifestDeser q.2.manifest = .ok inst := by
  intro offs
  induction offs with
  | nil =>
    intro init M _ q hq
    simp at hq
  | cons p t ih =>
    intro init M h q hq
    simp only [List.foldlM_cons] at h
    cases hstep : collectStep init p with
    | error e' =>
      rw [hstep, except_bind_error] at h
      cases h
    | ok man' =>
      rw [hstep, except_bind_ok] at h
      rcases List.mem_cons.mp hq with rfl | hq'
      · unfold collectStep at hstep
        cases hd : manifestDeser q.2.manifest with
        | ok inst => exact ⟨inst, rfl⟩
        | error e'' => rw [hd] at hstep; cases hstep
      · exact ih man' M h q hq'

theorem collect_ok_of_deser :
    ∀ (offs : List (Nat × WassetOffsets)) (init : List (Nat × Rng)),
      (∀ q ∈ offs, ∃ inst, manifestDeser q.2.manifest = .ok inst) →
      ∃ M, offs.foldlM collectStep init = .ok M := by
  intro offs
  induction offs with
  | nil =>
    intro init _
    exact ⟨init, rfl⟩
  | cons p t ih =>
    intro init hall
    obtain ⟨inst, hinst⟩ := hall p (List.mem_cons_self p t)
    have hstep : collectStep init p
        = .ok (inst.foldl
            (fun m q =>
              insertA q.1 ⟨toU32 (q.2.start + p.2.dataOff), toU32 (q.2.stop + p.2.dataOff)⟩ m)
            init) := by
      unfold collectStep
      rw [hinst]
      rfl
    obtain ⟨M, hM⟩ := ih _ (fun q hq => hall q (List.mem_cons_of_mem _ hq))
    refine ⟨M, ?_⟩
    simp only [List.foldlM_cons, hstep, except_bind_ok]
    exact hM

/-- C3 (amended): over a scanned module, an embedding recorded with a data
section but no manifest section (its manifest bytes still the empty default)
makes the merge — and hence `parse` — fail with a `Deserialize` error, while
an embedding recorded with a manifest but no data offset is not rejected:
whenever every recorded manifest deserializes, `parse` succeeds (the missing
data offset is silently the default 0). -/
theorem parse_partial_embedding (m : List Nat) (secs : List Sec)
    (offs : List (Nat × WassetOffsets))
    (hpm : parseModule m = .ok secs) (hsc : scanSecs secs [] = .ok offs) :
    ((∃ u rec, (u, rec) ∈ offs ∧ rec.manifest = []) →
        ∃ msg, WassetParser.parse m = .error (.deserialize msg)) ∧
      ((∀ q ∈ offs, ∃ inst, manifestDeser q.2.manifest = .ok inst) →
        ∃ M, WassetParser.parse m = .ok ⟨M, m⟩) := by
  have hparse : WassetParser.parse m
      = (collectManifests offs) >>= fun manifest => .ok ⟨manifest, m⟩ := by
    unfold WassetParser.parse
    rw [hpm, except_bind_ok, hsc, except_bind_ok]
  constructor
  · rintro ⟨u, rec, hmem, hnil⟩
    cases hcol : collectManifests offs with
    | ok M =>
      obtain ⟨inst, hinst⟩ := collect_ok_deser offs [] M hcol (u, rec) hmem
      rw [hnil] at hinst
      cases hinst
    | error e =>
      obtain ⟨msg, rfl⟩ := collect_error_kind offs [] e hcol
      refine ⟨msg, ?_⟩
      rw [hparse, hcol, except_bind_error]
  · intro hall
    obtain ⟨M, hM⟩ := collect_ok_of_deser offs [] hall
    refine ⟨M, ?_⟩
    rw [hparse]
    unfold collectManifests
    rw [hM, except_bind_ok]

/-- Counterexample for C3 as stated: a module holding one manifest-tagged
section and no data-tagged section is scanned as an embedding with a manifest
but no recorded data section, yet `parse` succeeds instead of returning a
`Deserialize` error. -/
theorem parse_partial_embedding_cex :
    (parseModule (HEADER ++ rawSectionBytes 0
          (lebEncode 54 ++ (manifestTag ++ uuidStr 0) ++ manifestSer []))).map
        (fun secs => scanSecs secs []) = .ok (.ok [(0, ⟨0, manifestSer []⟩)]) ∧
      WassetParser.parse (HEADER ++ rawSectionBytes 0
          (lebEncode 54 ++ (manifestTag ++ uuidStr 0) ++ manifestSer []))
        = .ok ⟨[], HEADER ++ rawSectionBytes 0
            (lebEncode 54 ++ (manifestTag ++ uuidStr 0) ++ manifestSer [])⟩ :=
  ⟨by decide, by decide⟩

/-- Witness for C3 (amended): a module holding one data-tagged section and no
manifest-tagged section fails `parse` with a `Deserialize` error. -/
theorem parse_partial_embedding_witness :
    parseModule (HEADER ++ rawSectionBytes 0 (lebEncode 50 ++ (dataTag ++ uuidStr 0) ++ [1, 2, 3]))
        = .ok [Sec.custom (dataTag ++ uuidStr 0) [1, 2, 3]
            (lebEncode 50 ++ (dataTag ++ uuidStr 0) ++ [1, 2, 3]) 61] ∧
      scanSecs [Sec.custom (dataTag ++ uuidStr 0) [1, 2, 3]
            (lebEncode 50 ++ (dataTag ++ uuidStr 0) ++ [1, 2, 3]) 61] []
        = .ok [(0, ⟨61, []⟩)] ∧
      (∃ msg, WassetParser.parse
          (HEADER ++ rawSectionBytes 0 (lebEncode 50 ++ (dataTag ++ uuidStr 0) ++ [1, 2, 3]))
        = .error (.deserialize msg)) :=
  ⟨by decide, by decide,
    (parse_partial_embedding
        (HEADER ++ rawSectionBytes 0 (lebEncode 50 ++ (dataTag ++ uuidStr 0) ++ [1, 2, 3]))
        [Sec.custom (dataTag ++ uuidStr 0) [1, 2, 3]
          (lebEncode 50 ++ (dataTag ++ uuidStr 0) ++ [1, 2, 3]) 61]
        [(0, ⟨61, []⟩)] (by decide) (by decide)).1
      ⟨0, ⟨61, []⟩, by decide, rfl⟩⟩

theorem mem_insertA {α β : Type} [DecidableEq α] (k : α) (v : β) :
    ∀ (l : List (α × β)) (x : α × β), x ∈ insertA k v l → x = (k, v) ∨ x ∈ l := by
  intro l
  induction l with
  | nil =>
    intro x hx
    simp [insertA] at hx
    exact Or.inl hx
  | cons p t ih =>
    intro x hx
    simp only [insertA] at hx
    by_cases hk : k = p.1
    · rw [if_pos hk] at hx
      rcases List.mem_cons.mp hx with rfl | hx'
      · exact Or.inl rfl
      · exact Or.inr (List.mem_cons_of_mem _ hx')
    · rw [if_neg hk] at hx
      rcases List.mem_cons.mp hx with rfl | hx'
      · exact Or.inr (List.mem_cons_self _ _)
      · rcases ih x hx' with h | h
        · exact Or.inl h
        · exact Or.inr (List.mem_cons_of_mem _ h)

theorem mem_foldl_insert {β : Type} :
    ∀ (rs : List (Nat × β)) (init : List (Nat × β)) (x : Nat × β),
      x ∈ rs.foldl (fun m p => insertA p.1 p.2 m) init → x ∈ init ∨ x ∈ rs := by
  intro rs
  induction rs with
  | nil =>
    intro init x hx
    exact Or.inl hx
  | cons p t ih =>
    intro init x hx
    simp only [List.foldl_cons] at hx
    rcases ih _ x hx with h | h
    · rcases mem_insertA p.1 p.2 init x h with rfl | h'
      · exact Or.inr (List.mem_cons_self _ _)
      · exact Or.inl h'
    · exact Or.inr (List.mem_cons_of_mem _ h)

theorem insertA_length {α β : Type} [DecidableEq α] (k : α) (v : β) :
    ∀ l : List (α × β), (insertA k v l).length ≤ l.length + 1 := by
  intro l
  induction l with
  | nil => simp [insertA]
  | cons p t ih =>
    simp only [insertA]
    by_cases hk : k = p.1
    · simp [hk]
    · simp only [if_neg hk, List.length_cons]
      omega

theorem foldl_insert_length {β : Type} :
    ∀ (rs : List (Nat × β)) (init : List (Nat × β)),
      (rs.foldl (fun m p => insertA p.1 p.2 m) init).length ≤ init.length + rs.length := by
  intro rs
  induction rs with
  | nil => intro init; simp
  | cons p t ih =>
    intro init
    simp only [List.foldl_cons, List.length_cons]
    calc (t.foldl (fun m p => insertA p.1 p.2 m) (insertA p.1 p.2 init)).length
        ≤ (insertA p.1 p.2 init).length + t.length := ih _
    _ ≤ init.length + 1 + t.length := by
        have := insertA_length p.1 p.2 init
        omega
    _ = init.length + (t.length + 1) := by omega

section EncodeLemmas

variable {A : Type} (ser : A → List Nat)
variable (enc : String → List (String × TomlValue) → List Nat → Except WassetError (Option A))
variable (supply : Nat → Nat)

theorem blobOf_append (r1 r2 : List (Nat × A)) :
    blobOf ser (r1 ++ r2) = blobOf ser r1 ++ blobOf ser r2 := by
  simp [blobOf]

theorem rangesFrom_append :
    ∀ (r1 r2 : List (Nat × A)) (base : Nat),
      rangesFrom ser base (r1 ++ r2)
        = rangesFrom ser base r1 ++ rangesFrom ser (base + (blobOf ser r1).length) r2 := by
  intro r1
  induction r1 with
  | nil => intro r2 base; simp [rangesFrom, blobOf]
  | cons p t ih =>
    intro r2 base
    obtain ⟨id, a⟩ := p
    simp only [List.cons_append, rangesFrom, List.append_eq]
    rw [ih r2 (base + (ser a).length)]
    have harg : base + (ser a).length + (blobOf ser t).length
        = base + (blobOf ser ((id, a) :: t)).length := by
      simp only [blobOf, List.flatMap_cons, List.length_append]
      omega
    rw [harg]

theorem rangesFrom_keys :
    ∀ (rs : List (Nat × A)) (base : Nat),
      (rangesFrom ser base rs).map Prod.fst = rs.map Prod.fst := by
  intro rs
  induction rs with
  | nil => intro base; rfl
  | cons p t ih =>
    intro base
    obtain ⟨id, a⟩ := p
    simp [rangesFrom, ih]

theorem rangesFrom_length (rs : List (Nat × A)) (base : Nat) :
    (rangesFrom ser base rs).length = rs.length := by
  have := rangesFrom_keys ser rs base
  have h1 := congrArg List.length this
  simpa using h1

theorem rangesFrom_mem_bound :
    ∀ (rs : List (Nat × A)) (base : Nat) (x : Nat × Rng), x ∈ rangesFrom ser base rs →
      ∃ s e, x.2 = ⟨toU32 s, toU32 e⟩ ∧ base ≤ s ∧ s ≤ e ∧ e ≤ base + (blobOf ser rs).length := by
  intro rs
  induction rs with
  | nil =>
    intro base x hx
    simp [rangesFrom] at hx
  | cons p t ih =>
    intro base x hx
    obtain ⟨id, a⟩ := p
    simp only [rangesFrom] at hx
    rcases List.mem_cons.mp hx with rfl | hx'
    · refine ⟨base, base + (ser a).length, rfl, le_refl _, by omega, ?_⟩
      simp only [blobOf, List.flatMap_cons, List.length_append]
      omega
    · obtain ⟨s, e, hse, h1, h2, h3⟩ := ih _ x hx'
      refine ⟨s, e, hse, by omega, h2, ?_⟩
      simp only [blobOf, List.flatMap_cons, List.length_append] at h3 ⊢
      omega

/-- Lookup of an ID in the ranges of a duplicate-free record list locates its
record's serialization inside the blob. -/
theorem lookup_rangesFrom :
    ∀ (rs : List (Nat × A)) (base : Nat) (id : Nat) (a : A),
      (rs.map Prod.fst).Nodup → (id, a) ∈ rs →
      ∃ pre post, blobOf ser rs = pre ++ ser a ++ post ∧
        lookupA id (rangesFrom ser base rs)
          = some ⟨toU32 (base + pre.length), toU32 (base + pre.length + (ser a).length)⟩ := by
  intro rs
  induction rs with
  | nil =>
    intro base id a _ h
    simp at h
  | cons p t ih =>
    intro base id a hnd hmem
    obtain ⟨id', a'⟩ := p
    simp only [List.map_cons, List.nodup_cons] at hnd
    rcases List.mem_cons.mp hmem with heq | hmem'
    · cases heq
      refine ⟨[], blobOf ser t, by simp [blobOf], ?_⟩
      simp [rangesFrom, lookupA]
    · have hne : id ≠ id' := by
        intro he
        exact hnd.1 (he ▸ List.mem_map.mpr ⟨(id, a), hmem', rfl⟩)
      obtain ⟨pre, post, hblob, hlk⟩ := ih (base + (ser a').length) id a hnd.2 hmem'
      refine ⟨ser a' ++ pre, post, ?_, ?_⟩
      · simp only [blobOf, List.flatMap_cons] at hblob ⊢
        rw [hblob]
        simp [List.append_assoc]
      · simp only [rangesFrom, lookupA, if_neg hne]
        rw [hlk]
        congr 2
        · congr 1
          simp
          omega
        · congr 1
          simp
          omega

/-- Specification of one successful walk step sequence
(`load_assets_in_folder`): the blob grows by exactly the serialized accepted
records, the manifest gains their ranges, the ID counter advances by their
count, and the IDs are the consecutive supply values. -/
theorem walkEntries_spec :
    ∀ (toml : List (String × TomlValue)) (entries : List DirEntry) (st st' : EncState),
      walkEntries ser enc supply toml entries st = .ok st' →
      st'.data = st.data ++ blobOf ser (folderRecords enc supply toml entries st.ctr) ∧
      st'.manifest = (rangesFrom ser st.data.length
          (folderRecords enc supply toml entries st.ctr)).foldl
          (fun m p => insertA p.1 p.2 m) st.manifest ∧
      st'.ctr = st.ctr + (folderRecords enc supply toml entries st.ctr).length ∧
      (folderRecords enc supply toml entries st.ctr).map Prod.fst
        = (List.range (folderRecords enc supply toml entries st.ctr).length).map
            fun i => supply (st.ctr + i) := by
  intro toml entries st
  induction toml, entries, st using walkEntries.induct ser enc supply with
  | case1 toml st =>
    intro st' h
    simp only [walkEntries] at h
    cases h
    simp [folderRecords, blobOf, rangesFrom]
  | case2 toml name toml' sub t st subH ih1 ih2 =>
    intro st' h
    simp only [walkEntries] at h
    cases hsub : walkEntries ser enc supply toml' sub
        { data := st.data, hier := (lookupA name st.hier.subs).getD AssetHierarchy.empty,
          manifest := st.manifest, ctr := st.ctr } with
    | error e => rw [hsub, except_bind_error] at h; cases h
    | ok st1 =>
      rw [hsub, except_bind_ok] at h
      obtain ⟨hd1, hm1, hc1, hk1⟩ := ih1 st1 hsub
      obtain ⟨hd2, hm2, hc2, hk2⟩ := ih2 st1 st' h
      simp only at hd1 hm1 hc1 hk1 hd2 hm2 hc2 hk2
      simp only [folderRecords]
      set R1 := folderRecords enc supply toml' sub st.ctr with hR1
      set R2 := folderRecords enc supply toml t (st.ctr + R1.length) with hR2
      have hctr1 : st1.ctr = st.ctr + R1.length := hc1
      rw [hctr1] at hd2 hm2 hc2 hk2
      rw [← hR2] at hd2 hm2 hc2 hk2
      refine ⟨?_, ?_, ?_, ?_⟩
      · rw [hd2, hd1, blobOf_append]
        simp [List.append_assoc]
      · rw [hm2, hm1, hd1]
        rw [rangesFrom_append]
        rw [List.foldl_append]
        congr 1
        simp
      · rw [hc2]
        simp only [List.length_append]
        omega
      · rw [List.map_append, hk1, hk2, List.length_append, List.range_add]
        rw [List.map_append, List.map_map]
        congr 1
        apply List.map_congr_left
        intro i _
        have harith : st.ctr + R1.length + i = st.ctr + (R1.length + i) := by omega
        simp [Function.comp, harith]
  | case3 toml stem ext dat t st e hmeta =>
    intro st' h
    simp only [walkEntries, hmeta] at h
    cases h
  | case4 toml stem ext dat t st tbl hmeta e henc =>
    intro st' h
    simp only [walkEntries, hmeta, henc] at h
    cases h
  | case5 toml stem ext dat t st tbl hmeta henc ih =>
    intro st' h
    simp only [walkEntries, hmeta, henc] at h
    obtain ⟨hd, hm, hc, hk⟩ := ih st' h
    simp only [folderRecords, hmeta, henc]
    exact ⟨hd, hm, hc, hk⟩
  | case6 toml stem ext dat t st tbl hmeta a henc id start data' stop ih =>
    intro st' h
    simp only [walkEntries, hmeta, henc] at h
    obtain ⟨hd, hm, hc, hk⟩ := ih st' h
    simp only at hd hm hc hk
    simp only [folderRecords, hmeta, henc]
    set R' := folderRecords enc supply toml t (st.ctr + 1) with hR'
    refine ⟨?_, ?_, ?_, ?_⟩
    · rw [hd]
      simp only [blobOf, List.flatMap_cons]
      exact List.append_assoc st.data (ser a) _
    · have hlen : data'.length = st.data.length + (ser a).length := by
        show (st.data ++ ser a).length = _
        exact List.length_append ..
      have hstop : stop = toU32 (st.data.length + (ser a).length) := by
        show toU32 data'.length = _
        rw [hlen]
      rw [hm, hstop, hlen]
      simp only [rangesFrom, List.foldl_cons]
      try rfl
    · rw [hc]
      simp only [List.length_cons]
      try omega
    · simp only [List.map_cons, List.length_cons, List.range_succ_eq_map, List.map_map, hk]
      have hhead : supply st.ctr = supply (st.ctr + 0) := congrArg supply (by omega)
      have htail : List.map (fun i => supply (st.ctr + 1 + i)) (List.range R'.length)
          = List.map ((fun i => supply (st.ctr + i)) ∘ Nat.succ) (List.range R'.length) := by
        apply List.map_congr_left
        intro i _
        have harith : st.ctr + 1 + i = st.ctr + i.succ := by omega
        simp [Function.comp, harith]
      rw [hhead, htail]

theorem toU32_lt32 (n : Nat) : toU32 n < 2 ^ 32 := Nat.mod_lt _ (by norm_num)

theorem encodeAssetFolder_inv (rootName : String) (toml : List (String × TomlValue))
    (entries : List DirEntry) (ea : EncodedAssets)
    (h : encodeAssetFolder ser enc supply rootName toml entries = .ok ea) :
    ∃ st, walkEntries ser enc supply toml entries ⟨[], AssetHierarchy.empty, [], 0⟩ = .ok st ∧
      ea.data = st.data ∧ ea.manifest = manifestSer st.manifest := by
  unfold encodeAssetFolder at h
  cases hw : walkEntries ser enc supply toml entries ⟨[], AssetHierarchy.empty, [], 0⟩ with
  | error e => rw [hw, except_bind_error] at h; cases h
  | ok st =>
    rw [hw, except_bind_ok] at h
    cases h
    exact ⟨st, rfl, rfl, rfl⟩

/-- Bounds on the walk's finished manifest, enough for the structured
manifest codec to round-trip. -/
theorem encode_manifest_deser (toml : List (String × TomlValue)) (entries : List DirEntry)
    (st : EncState)
    (hw : walkEntries ser enc supply toml entries ⟨[], AssetHierarchy.empty, [], 0⟩ = .ok st)
    (hcount : (folderRecords enc supply toml entries 0).length < 2 ^ 32)
    (hbound : ∀ i < (folderRecords enc supply toml entries 0).length, supply i < 2 ^ 128) :
    manifestDeser (manifestSer st.manifest) = .ok st.manifest ∧
      st.data = blobOf ser (folderRecords enc supply toml entries 0) ∧
      ∀ p ∈ st.manifest, p ∈ rangesFrom ser 0 (folderRecords enc supply toml entries 0) := by
  obtain ⟨hd, hm, hc, hk⟩ := walkEntries_spec ser enc supply toml entries _ st hw
  simp only at hd hm hc hk
  have hdata : st.data = blobOf ser (folderRecords enc supply toml entries 0) := by
    rw [hd]
    simp
  have hmem : ∀ p ∈ st.manifest, p ∈ rangesFrom ser 0 (folderRecords enc supply toml entries 0) := by
    intro p hp
    rw [hm] at hp
    rcases mem_foldl_insert _ _ p hp with h | h
    · simp at h
    · simpa using h
  refine ⟨?_, hdata, hmem⟩
  apply manifestDeser_manifestSer
  · intro p hp
    have hp2 := hmem p hp
    refine ⟨?_, ?_, ?_⟩
    · have hkey : p.1 ∈ (folderRecords enc supply toml entries 0).map Prod.fst := by
        rw [← rangesFrom_keys ser _ 0]
        exact List.mem_map.mpr ⟨p, hp2, rfl⟩
      rw [hk] at hkey
      rcases List.mem_map.mp hkey with ⟨i, hi, hpi⟩
      have hilt : i < (folderRecords enc supply toml entries 0).length := List.mem_range.mp hi
      have := hbound i hilt
      rw [← hpi]
      simpa using this
    · obtain ⟨s, e, hse, _, _, _⟩ := rangesFrom_mem_bound ser _ 0 p hp2
      rw [hse]
      exact toU32_lt32 s
    · obtain ⟨s, e, hse, _, _, _⟩ := rangesFrom_mem_bound ser _ 0 p hp2
      rw [hse]
      exact toU32_lt32 e
  · have hle : st.manifest.length
        ≤ (rangesFrom ser 0 (folderRecords enc supply toml entries 0)).length := by
      rw [hm]
      have := foldl_insert_length
        (rangesFrom ser (([] : List Nat)).length (folderRecords enc supply toml entries 0)) []
      simpa using this
    rw [rangesFrom_length] at hle
    omega

/-- C6 (amended): whenever `encode_asset_folder` succeeds and the produced
blob fits the 32-bit offset space, every range of the produced manifest
satisfies `start ≤ end ≤ blob length`; moreover the walk's blob is
append-only at every step. -/
theorem encode_range_validity (rootName : String) (toml : List (String × TomlValue))
    (entries : List DirEntry) (ea : EncodedAssets)
    (henc : encodeAssetFolder ser enc supply rootName toml entries = .ok ea)
    (hcount : (folderRecords enc supply toml entries 0).length < 2 ^ 32)
    (hbound : ∀ i < (folderRecords enc supply toml entries 0).length, supply i < 2 ^ 128)
    (hdlen : ea.data.length < 2 ^ 32) :
    (∃ m, manifestDeser ea.manifest = .ok m ∧
        ∀ p ∈ m, p.2.start ≤ p.2.stop ∧ p.2.stop ≤ ea.data.length) ∧
      ∀ (toml2 : List (String × TomlValue)) (entries2 : List DirEntry) (st st2 : EncState),
        walkEntries ser enc supply toml2 entries2 st = .ok st2 →
        ∃ suffix, st2.data = st.data ++ suffix := by
  obtain ⟨st, hw, hdata, hman⟩ := encodeAssetFolder_inv ser enc supply rootName toml entries ea henc
  obtain ⟨hdeser, hblob, hmem⟩ := encode_manifest_deser ser enc supply toml entries st hw hcount hbound
  constructor
  · refine ⟨st.manifest, by rw [hman]; exact hdeser, ?_⟩
    intro p hp
    obtain ⟨s, e, hse, h1, h2, h3⟩ := rangesFrom_mem_bound ser _ 0 p (hmem p hp)
    have hlen : (blobOf ser (folderRecords enc supply toml entries 0)).length = ea.data.length := by
      rw [hdata, hblob]
    rw [hlen] at h3
    have hs : toU32 s = s := toU32_lt (by omega)
    have he : toU32 e = e := toU32_lt (by omega)
    rw [hse]
    simp only [hs, he]
    omega
  · intro toml2 entries2 st0 st2 hw2
    obtain ⟨hd2, _, _, _⟩ := walkEntries_spec ser enc supply toml2 entries2 st0 st2 hw2
    exact ⟨_, hd2⟩

/-- C7: with a fresh (injective) ID supply, a successful encode of a folder
whose encoder accepts `N` files yields exactly `N` manifest entries with `N`
pairwise-distinct IDs, and the blob holds exactly the accepted records'
serializations (skipped files contribute no entry and no bytes). -/
theorem encode_count_unique (rootName : String) (toml : List (String × TomlValue))
    (entries : List DirEntry) (ea : EncodedAssets)
    (henc : encodeAssetFolder ser enc supply rootName toml entries = .ok ea)
    (hinj : ∀ i < (folderRecords enc supply toml entries 0).length,
      ∀ j < (folderRecords enc supply toml entries 0).length, supply i = supply j → i = j)
    (hbound : ∀ i < (folderRecords enc supply toml entries 0).length, supply i < 2 ^ 128)
    (hcount : (folderRecords enc supply toml entries 0).length < 2 ^ 32) :
    ∃ m, manifestDeser ea.manifest = .ok m ∧
      m.length = (folderRecords enc supply toml entries 0).length ∧
      (m.map Prod.fst).Nodup ∧
      ea.data = blobOf ser (folderRecords enc supply toml entries 0) := by
  obtain ⟨st, hw, hdata, hman⟩ := encodeAssetFolder_inv ser enc supply rootName toml entries ea henc
  obtain ⟨hd, hm, hc, hk⟩ := walkEntries_spec ser enc supply toml entries _ st hw
  simp only at hd hm hc hk
  have hkeysnd : ((folderRecords enc supply toml entries 0).map Prod.fst).Nodup := by
    rw [hk]
    apply List.Nodup.map_on
    · intro i hi j hj hij
      have hi' := List.mem_range.mp hi
      have hj' := List.mem_range.mp hj
      simp only [Nat.zero_add] at hij
      exact hinj i hi' j hj' hij
    · exact List.nodup_range _
  have hmanifest : st.manifest = rangesFrom ser 0 (folderRecords enc supply toml entries 0) := by
    rw [hm]
    have := foldl_insertA (fun q : Nat × Rng => q.2)
      (rangesFrom ser (([] : List Nat)).length (folderRecords enc supply toml entries 0)) []
      (by rw [rangesFrom_keys]; simpa using hkeysnd) (by simp)
    simp only [List.nil_append] at this
    rw [this]
    simp
  obtain ⟨hdeser, hblob, _⟩ := encode_manifest_deser ser enc supply toml entries st hw hcount hbound
  refine ⟨st.manifest, by rw [hman]; exact hdeser, ?_, ?_, by rw [hdata]; exact hblob⟩
  · rw [hmanifest, rangesFrom_length]
  · rw [hmanifest, rangesFrom_keys]
    exact hkeysnd

end EncodeLemmas

/-- Counterexample for C6 as stated: an encoder whose two records serialize to
`2^32 - 1` and `2` bytes makes `encode_asset_folder` succeed with a manifest
whose second range has `start = 2^32 - 1 > stop = 1` (the `as u32` casts wrap),
violating `start ≤ end ≤ blob length`. -/
theorem encode_range_validity_cex :
    encodeAssetFolder (fun n : Nat => List.replicate n 0)
        (fun ext _ _ => .ok (some (if ext = "x" then 2 ^ 32 - 1 else 2)))
        (fun n => n) "root" [] [.file "f" "x" [], .file "g" "y" []]
      = .ok ⟨List.replicate (2 ^ 32 - 1) 0 ++ List.replicate 2 0,
          [("root", .node [("f", 0), ("g", 1)] [])],
          manifestSer [(0, ⟨0, 2 ^ 32 - 1⟩), (1, ⟨2 ^ 32 - 1, 1⟩)]⟩ ∧
      manifestDeser (manifestSer [(0, ⟨0, 2 ^ 32 - 1⟩), (1, ⟨2 ^ 32 - 1, 1⟩)])
        = .ok [(0, ⟨0, 2 ^ 32 - 1⟩), (1, ⟨2 ^ 32 - 1, 1⟩)] ∧
      (1, (⟨2 ^ 32 - 1, 1⟩ : Rng)) ∈ [(0, (⟨0, 2 ^ 32 - 1⟩ : Rng)), (1, ⟨2 ^ 32 - 1, 1⟩)] ∧
      ¬ ((2 ^ 32 - 1 : Nat) ≤ 1) := by
  refine ⟨?_, ?_, by decide, by decide⟩
  · have hm1 : metaFor [] "f" "x" = .ok [] := rfl
    have hm2 : metaFor [] "g" "y" = .ok [] := rfl
    have he1 : (fun (ext : String) (_ : List (String × TomlValue)) (_ : List Nat) =>
          (.ok (some (if ext = "x" then 2 ^ 32 - 1 else 2)) : Except WassetError (Option Nat)))
        "x" [] [] = .ok (some (2 ^ 32 - 1)) := by decide
    have he2 : (fun (ext : String) (_ : List (String × TomlValue)) (_ : List Nat) =>
          (.ok (some (if ext = "x" then 2 ^ 32 - 1 else 2)) : Except WassetError (Option Nat)))
        "y" [] [] = .ok (some 2) := by decide
    have ht1 : toU32 0 = 0 := by decide
    have ht2 : toU32 (2 ^ 32 - 1) = 2 ^ 32 - 1 := by decide
    have ht3 : toU32 (2 ^ 32 - 1 + 2) = 1 := by decide
    unfold encodeAssetFolder
    simp only [walkEntries, hm1, hm2, he1, he2, except_bind_ok, List.nil_append,
      List.length_replicate, List.length_append, ht1, ht2, ht3]
    simp only [insertA, AssetHierarchy.pushAsset, AssetHierarchy.empty]
    norm_num
    simp [toU32, manifestSer, AssetHierarchy.assets, AssetHierarchy.subs]
  · apply manifestDeser_manifestSer
    · intro p hp
      rcases List.mem_cons.mp hp with rfl | hp'
      · refine ⟨by norm_num, by norm_num, by norm_num⟩
      · rcases List.mem_cons.mp hp' with rfl | hp''
        · refine ⟨by norm_num, by norm_num, by norm_num⟩
        · simp at hp''
    · norm_num

/-- Witness for C6 (amended): a one-file folder encodes with a valid range
`[0, 3)` over a 3-byte blob. -/
theorem encode_range_validity_witness :
    encodeAssetFolder (fun l : List Nat => l) (fun _ _ d => .ok (some d)) (fun n => n)
        "root" [] [.file "a" "txt" [1, 2, 3]]
      = .ok ⟨[1, 2, 3], [("root", .node [("a", 0)] [])], manifestSer [(0, ⟨0, 3⟩)]⟩ ∧
      ((∃ m, manifestDeser
            (EncodedAssets.mk [1, 2, 3] [("root", .node [("a", 0)] [])]
              (manifestSer [(0, ⟨0, 3⟩)])).manifest = .ok m ∧
          ∀ p ∈ m, p.2.start ≤ p.2.stop ∧ p.2.stop ≤
            (EncodedAssets.mk [1, 2, 3] [("root", .node [("a", 0)] [])]
              (manifestSer [(0, ⟨0, 3⟩)])).data.length) ∧
        ∀ (toml2 : List (String × TomlValue)) (entries2 : List DirEntry) (st st2 : EncState),
          walkEntries (fun l : List Nat => l) (fun _ _ d => .ok (some d)) (fun n => n)
              toml2 entries2 st = .ok st2 →
          ∃ suffix, st2.data = st.data ++ suffix) := by
  have hm1 : metaFor [] "a" "txt" = .ok [] := rfl
  have henc : encodeAssetFolder (fun l : List Nat => l) (fun _ _ d => .ok (some d)) (fun n => n)
      "root" [] [.file "a" "txt" [1, 2, 3]]
      = .ok ⟨[1, 2, 3], [("root", .node [("a", 0)] [])], manifestSer [(0, ⟨0, 3⟩)]⟩ := by
    unfold encodeAssetFolder
    simp only [walkEntries, hm1, except_bind_ok, List.nil_append]
    simp [toU32, insertA, AssetHierarchy.pushAsset, AssetHierarchy.empty,
      AssetHierarchy.assets, AssetHierarchy.subs]
  have hrec : folderRecords (fun (_ : String) (_ : List (String × TomlValue)) (d : List Nat) =>
        (.ok (some d) : Except WassetError (Option (List Nat)))) (fun n => n)
      [] [.file "a" "txt" [1, 2, 3]] 0 = [(0, [1, 2, 3])] := by
    simp [folderRecords, hm1]
  refine ⟨henc, ?_⟩
  exact encode_range_validity (fun l : List Nat => l) (fun _ _ d => .ok (some d)) (fun n => n)
    "root" [] [.file "a" "txt" [1, 2, 3]] _ henc
    (by rw [hrec]; norm_num)
    (by rw [hrec]; intro i hi; simp at hi; subst hi; norm_num)
    (by norm_num)

/-- Witness for C7: a one-file folder yields one manifest entry, one distinct
ID, and a blob equal to the single record's serialization. -/
theorem encode_count_unique_witness :
    encodeAssetFolder (fun l : List Nat => l) (fun _ _ d => .ok (some d)) (fun n => n)
        "assets" [] [.file "b" "bin" [9, 9]]
      = .ok ⟨[9, 9], [("assets", .node [("b", 0)] [])], manifestSer [(0, ⟨0, 2⟩)]⟩ ∧
      (∃ m, manifestDeser
          (EncodedAssets.mk [9, 9] [("assets", .node [("b", 0)] [])]
            (manifestSer [(0, ⟨0, 2⟩)])).manifest = .ok m ∧
        m.length = (folderRecords
            (fun (_ : String) (_ : List (String × TomlValue)) (d : List Nat) =>
              (.ok (some d) : Except WassetError (Option (List Nat)))) (fun n => n)
            [] [.file "b" "bin" [9, 9]] 0).length ∧
        (m.map Prod.fst).Nodup ∧
        (EncodedAssets.mk [9, 9] [("assets", .node [("b", 0)] [])]
            (manifestSer [(0, ⟨0, 2⟩)])).data
          = blobOf (fun l : List Nat => l) (folderRecords
              (fun (_ : String) (_ : List (String × TomlValue)) (d : List Nat) =>
                (.ok (some d) : Except WassetError (Option (List Nat)))) (fun n => n)
              [] [.file "b" "bin" [9, 9]] 0)) := by
  have hm1 : metaFor [] "b" "bin" = .ok [] := rfl
  have henc : encodeAssetFolder (fun l : List Nat => l) (fun _ _ d => .ok (some d)) (fun n => n)
      "assets" [] [.file "b" "bin" [9, 9]]
      = .ok ⟨[9, 9], [("assets", .node [("b", 0)] [])], manifestSer [(0, ⟨0, 2⟩)]⟩ := by
    unfold encodeAssetFolder
    simp only [walkEntries, hm1, except_bind_ok, List.nil_append]
    simp [toU32, insertA, AssetHierarchy.pushAsset, AssetHierarchy.empty,
      AssetHierarchy.assets, AssetHierarchy.subs]
  have hrec1 : (folderRecords (fun (_ : String) (_ : List (String × TomlValue)) (d : List Nat) =>
        (.ok (some d) : Except WassetError (Option (List Nat)))) (fun n => n)
      [] [.file "b" "bin" [9, 9]] 0).length = 1 := by
    simp [folderRecords, hm1]
  refine ⟨henc, ?_⟩
  exact encode_count_unique (fun l : List Nat => l) (fun _ _ d => .ok (some d)) (fun n => n)
    "assets" [] [.file "b" "bin" [9, 9]] _ henc
    (by rw [hrec1]; intro i hi j hj _; omega)
    (by rw [hrec1]; intro i hi; simp at hi; subst hi; norm_num)
    (by rw [hrec1]; norm_num)

theorem customParse_mk (name payload : List Nat) (hn : name.length < 2 ^ 32) :
    customParse (lebEncode name.length ++ (name ++ payload))
      = .ok (name, payload, (lebEncode name.length).length + name.length) := by
  unfold customParse
  have hlen : (lebEncode name.length ++ (name ++ payload)).length
      = (lebEncode name.length).length + name.length + payload.length := by
    simp
    omega
  have hdec := lebDecode_lebEncode name.length hn (name ++ payload)
  simp only [hdec]
  rw [if_neg (by rw [hlen]; omega)]
  rw [List.drop_left, List.take_left]
  have hassoc : lebEncode name.length ++ (name ++ payload)
      = (lebEncode name.length ++ name) ++ payload := by
    simp [List.append_assoc]
  rw [hassoc, List.drop_left' (by simp)]

theorem isPrefixOf_self_append (l x : List Nat) : l.isPrefixOf (l ++ x) = true := by
  have : l <+: l ++ x := List.prefix_append l x
  rw [← List.isPrefixOf_iff_prefix] at this
  exact this

theorem manifestTag_not_dataName (x : List Nat) :
    manifestTag.isPrefixOf (dataTag ++ x) = false := by
  simp [manifestTag, dataTag, List.isPrefixOf, List.cons_append]

theorem mName_length (u : Nat) : (manifestTag ++ uuidStr u).length = 54 := by
  simp [uuidStr_length, manifestTag]

theorem dName_length (u : Nat) : (dataTag ++ uuidStr u).length = 50 := by
  simp [uuidStr_length, dataTag]

/-- Layout of the embedded module: header, manifest section, data section,
with the blob as the final suffix at offset `embedDataOff`. -/
theorem embedModule_split (ea : EncodedAssets) (u : Nat) :
    ∃ P, embedModule ea u = P ++ ea.data ∧ P.length = embedDataOff ea u := by
  refine ⟨HEADER ++
      rawSectionBytes 0
        (lebEncode (toU32 (manifestTag ++ uuidStr u).length) ++ (manifestTag ++ uuidStr u)
          ++ ea.manifest) ++
      (0 :: lebEncode (toU32 (lebEncode (toU32 (dataTag ++ uuidStr u).length)
          ++ (dataTag ++ uuidStr u) ++ ea.data).length)
        ++ (lebEncode (toU32 (dataTag ++ uuidStr u).length) ++ (dataTag ++ uuidStr u))), ?_, ?_⟩
  · unfold embedModule rawSectionBytes
    simp [List.append_assoc]
  · unfold embedDataOff embedModule rawSectionBytes
    simp only [List.length_append, List.length_cons]
    omega

/-- Parsing a module that embeds a bundle under UUID `u` succeeds and merges
the bundle's manifest shifted by the data payload's absolute offset. -/
theorem parse_embedModule (ea : EncodedAssets) (u : Nat) (man : List (Nat × Rng))
    (hdeser : manifestDeser ea.manifest = .ok man)
    (hnd : (man.map Prod.fst).Nodup)
    (hu : u < 2 ^ 128)
    (hmod : (embedModule ea u).length < 2 ^ 32) :
    WassetParser.parse (embedModule ea u)
      = .ok ⟨man.map fun q => (q.1,
            (⟨toU32 (q.2.start + embedDataOff ea u),
              toU32 (q.2.stop + embedDataOff ea u)⟩ : Rng)),
          embedModule ea u⟩ := by
  have h54 : toU32 (manifestTag ++ uuidStr u).length = (manifestTag ++ uuidStr u).length := by
    rw [mName_length]
    decide
  have h50 : toU32 (dataTag ++ uuidStr u).length = (dataTag ++ uuidStr u).length := by
    rw [dName_length]
    decide
  have hshape : embedModule ea u
      = HEADER ++ (rawSectionBytes 0 (lebEncode (manifestTag ++ uuidStr u).length
          ++ ((manifestTag ++ uuidStr u) ++ ea.manifest))
        ++ rawSectionBytes 0 (lebEncode (dataTag ++ uuidStr u).length
          ++ ((dataTag ++ uuidStr u) ++ ea.data))) := by
    unfold embedModule
    simp only [h54, h50, List.append_assoc]
  set c1 := lebEncode (manifestTag ++ uuidStr u).length
      ++ ((manifestTag ++ uuidStr u) ++ ea.manifest) with hc1
  set c2 := lebEncode (dataTag ++ uuidStr u).length
      ++ ((dataTag ++ uuidStr u) ++ ea.data) with hc2
  have hml : (embedModule ea u).length
      = 8 + (1 + (lebEncode (toU32 c1.length)).length + c1.length)
        + (1 + (lebEncode (toU32 c2.length)).length + c2.length) := by
    rw [hshape]
    simp only [rawSectionBytes, List.length_append, List.length_cons, HEADER]
    simp
    omega
  have hc1lt : c1.length < 2 ^ 32 := by omega
  have hc2lt : c2.length < 2 ^ 32 := by omega
  have hcp1 : customParse c1
      = .ok (manifestTag ++ uuidStr u, ea.manifest,
          (lebEncode (manifestTag ++ uuidStr u).length).length
            + (manifestTag ++ uuidStr u).length) :=
    customParse_mk (manifestTag ++ uuidStr u) ea.manifest (by rw [mName_length]; norm_num)
  have hcp2 : customParse c2
      = .ok (dataTag ++ uuidStr u, ea.data,
          (lebEncode (dataTag ++ uuidStr u).length).length + (dataTag ++ uuidStr u).length) :=
    customParse_mk (dataTag ++ uuidStr u) ea.data (by rw [dName_length]; norm_num)
  have hraw2nil : rawSectionBytes 0 c2 = rawSectionBytes 0 c2 ++ [] := by simp
  have hpm : parseModule (embedModule ea u)
      = .ok [Sec.custom (manifestTag ++ uuidStr u) ea.manifest c1
              (8 + 1 + (lebEncode c1.length).length
                + ((lebEncode (manifestTag ++ uuidStr u).length).length
                  + (manifestTag ++ uuidStr u).length)),
             Sec.custom (dataTag ++ uuidStr u) ea.data c2
              ((8 + 1 + (lebEncode c1.length).length + c1.length) + 1
                + (lebEncode c2.length).length
                + ((lebEncode (dataTag ++ uuidStr u).length).length
                  + (dataTag ++ uuidStr u).length))] := by
    rw [hshape, parseModule_header]
    rw [parseSecs_cons_custom c1 (rawSectionBytes 0 c2) 8 _ _ _ hcp1 hc1lt]
    rw [hraw2nil]
    rw [parseSecs_cons_custom c2 [] _ _ _ _ hcp2 hc2lt]
    rw [parseSecs_nil]
    rfl
  set o2 := (8 + 1 + (lebEncode c1.length).length + c1.length) + 1
      + (lebEncode c2.length).length
      + ((lebEncode (dataTag ++ uuidStr u).length).length + (dataTag ++ uuidStr u).length)
    with ho2
  have ho2off : o2 = embedDataOff ea u := by
    have hc2eq : c2.length
        = (lebEncode (dataTag ++ uuidStr u).length).length + (dataTag ++ uuidStr u).length
          + ea.data.length := by
      rw [hc2]
      simp only [List.length_append]
      omega
    rw [ho2]
    unfold embedDataOff
    rw [hml, toU32_lt hc1lt, toU32_lt hc2lt]
    omega
  have ho2lt : o2 < 2 ^ 32 := by
    rw [ho2off]
    unfold embedDataOff
    omega
  have hscan : scanSecs [Sec.custom (manifestTag ++ uuidStr u) ea.manifest c1
        (8 + 1 + (lebEncode c1.length).length
          + ((lebEncode (manifestTag ++ uuidStr u).length).length
            + (manifestTag ++ uuidStr u).length)),
       Sec.custom (dataTag ++ uuidStr u) ea.data c2 o2] []
      = .ok [(u, ⟨toU32 o2, ea.manifest⟩)] := by
    simp only [scanSecs, scanCustom, isPrefixOf_self_append, manifestTag_not_dataName,
      List.drop_left, uuidTryParse_uuidStr u hu, if_true, if_false]
    simp [updEntry, WassetOffsets.dflt]
  have hcollect : collectManifests [(u, ⟨toU32 o2, ea.manifest⟩)]
      = .ok (man.map fun q => (q.1,
          (⟨toU32 (q.2.start + toU32 o2), toU32 (q.2.stop + toU32 o2)⟩ : Rng))) := by
    have hkeys : embKeys [(u, (⟨toU32 o2, ea.manifest⟩ : WassetOffsets))]
        = man.map Prod.fst := by
      simp [embKeys, hdeser]
    obtain ⟨M, hM⟩ := collect_ok_of_deser [(u, ⟨toU32 o2, ea.manifest⟩)] []
      (by
        intro q hq
        simp only [List.mem_singleton] at hq
        subst hq
        exact ⟨man, hdeser⟩)
    have hMfl := collectManifests_flat [(u, ⟨toU32 o2, ea.manifest⟩)] M
      (by rw [hkeys]; exact hnd) hM
    have hflat : ([(u, (⟨toU32 o2, ea.manifest⟩ : WassetOffsets))].flatMap shiftedOf)
        = man.map fun q => (q.1,
            (⟨toU32 (q.2.start + toU32 o2), toU32 (q.2.stop + toU32 o2)⟩ : Rng)) := by
      simp [shiftedOf, hdeser]
    rw [hMfl, hflat] at hM
    exact hM
  have hparse : WassetParser.parse (embedModule ea u)
      = .ok ⟨man.map fun q => (q.1,
          (⟨toU32 (q.2.start + toU32 o2), toU32 (q.2.stop + toU32 o2)⟩ : Rng)),
        embedModule ea u⟩ := by
    unfold WassetParser.parse
    rw [hpm, except_bind_ok, hscan, except_bind_ok, hcollect, except_bind_ok]
  rw [hparse, toU32_lt ho2lt, ho2off]

/-- C1: Round trip — when `encode_asset_folder` succeeds (with a sound
serializer/deserializer pair and fresh bounded IDs), parsing a module that
embeds the produced bundle succeeds, yields one manifest entry per produced
record, and `load` on every ID of the parsed manifest returns `Ok(Some a)`
where `a` is exactly the record the encoder produced for that ID. -/
theorem encode_parse_roundtrip {A : Type}
    (ser : A → List Nat) (deser : List Nat → Except WassetError A)
    (enc : String → List (String × TomlValue) → List Nat → Except WassetError (Option A))
    (supply : Nat → Nat)
    (rootName : String) (toml : List (String × TomlValue)) (entries : List DirEntry)
    (ea : EncodedAssets) (u : Nat)
    (hround : ∀ a : A, deser (ser a) = .ok a)
    (henc : encodeAssetFolder ser enc supply rootName toml entries = .ok ea)
    (hinj : ∀ i < (folderRecords enc supply toml entries 0).length,
      ∀ j < (folderRecords enc supply toml entries 0).length, supply i = supply j → i = j)
    (hbound : ∀ i < (folderRecords enc supply toml entries 0).length, supply i < 2 ^ 128)
    (hcount : (folderRecords enc supply toml entries 0).length < 2 ^ 32)
    (hu : u < 2 ^ 128)
    (hmod : (embedModule ea u).length < 2 ^ 32) :
    ∃ p, WassetParser.parse (embedModule ea u) = .ok p ∧
      (p.manifest.map Prod.fst).length = (folderRecords enc supply toml entries 0).length ∧
      ∀ id ∈ p.manifest.map Prod.fst,
        ∃ a, (id, a) ∈ folderRecords enc supply toml entries 0 ∧
          load deser p id = .ok (some a) := by
  obtain ⟨st, hw, hdata, hman⟩ := encodeAssetFolder_inv ser enc supply rootName toml entries ea henc
  obtain ⟨hd, hm, hc, hk⟩ := walkEntries_spec ser enc supply toml entries _ st hw
  simp only at hd hm hc hk
  have hkeysnd : ((folderRecords enc supply toml entries 0).map Prod.fst).Nodup := by
    rw [hk]
    apply List.Nodup.map_on
    · intro i hi j hj hij
      have hi' := List.mem_range.mp hi
      have hj' := List.mem_range.mp hj
      simp only [Nat.zero_add] at hij
      exact hinj i hi' j hj' hij
    · exact List.nodup_range _
  have hmanifest : st.manifest = rangesFrom ser 0 (folderRecords enc supply toml entries 0) := by
    rw [hm]
    have h2 := foldl_insertA (fun q : Nat × Rng => q.2)
      (rangesFrom ser (([] : List Nat)).length (folderRecords enc supply toml entries 0)) []
      (by rw [rangesFrom_keys]; simpa using hkeysnd) (by simp)
    simp only [List.nil_append] at h2
    rw [h2]
    simp
  obtain ⟨hdeser0, hblob0, _⟩ := encode_manifest_deser ser enc supply toml entries st hw hcount hbound
  have hdeser : manifestDeser ea.manifest = .ok st.manifest := by
    rw [hman]
    exact hdeser0
  have hndman : (st.manifest.map Prod.fst).Nodup := by
    rw [hmanifest, rangesFrom_keys]
    exact hkeysnd
  have hp := parse_embedModule ea u st.manifest hdeser hndman hu hmod
  refine ⟨⟨st.manifest.map fun q => (q.1,
      (⟨toU32 (q.2.start + embedDataOff ea u), toU32 (q.2.stop + embedDataOff ea u)⟩ : Rng)),
    embedModule ea u⟩, hp, ?_, ?_⟩
  · simp only [List.length_map]
    rw [hmanifest, rangesFrom_length]
  · intro id hid
    have hidm : id ∈ (folderRecords enc supply toml entries 0).map Prod.fst := by
      have h3 : id ∈ st.manifest.map Prod.fst := by
        simpa using hid
      rw [hmanifest, rangesFrom_keys] at h3
      exact h3
    obtain ⟨q, hq, rfl⟩ := List.mem_map.mp hidm
    refine ⟨q.2, hq, ?_⟩
    obtain ⟨pre, post, hblob, hlk⟩ := lookup_rangesFrom ser
      (folderRecords enc supply toml entries 0) 0 q.1 q.2 hkeysnd hq
    obtain ⟨P0, hP0, hP0len⟩ := embedModule_split ea u
    have hdlen : ea.data = blobOf ser (folderRecords enc supply toml entries 0) := by
      rw [hdata]
      exact hblob0
    have hblen : ea.data.length = pre.length + (ser q.2).length + post.length := by
      rw [hdlen, hblob]
      simp only [List.length_append]
    have hmlen : (embedModule ea u).length = embedDataOff ea u + ea.data.length := by
      rw [hP0, List.length_append, hP0len]
    have ht1 : toU32 (0 + pre.length) = pre.length := by
      rw [Nat.zero_add]
      exact toU32_lt (by omega)
    have ht2 : toU32 (0 + pre.length + (ser q.2).length) = pre.length + (ser q.2).length := by
      rw [Nat.zero_add]
      exact toU32_lt (by omega)
    have h3 : lookupA q.1 st.manifest = some ⟨pre.length, pre.length + (ser q.2).length⟩ := by
      rw [hmanifest, hlk, ht1, ht2]
    have h4 := lookupA_map_snd
      (fun r : Rng => (⟨toU32 (r.start + embedDataOff ea u),
        toU32 (r.stop + embedDataOff ea u)⟩ : Rng)) q.1 st.manifest
    rw [h3] at h4
    have hlkP : lookupA q.1 (st.manifest.map fun q => (q.1,
          (⟨toU32 (q.2.start + embedDataOff ea u), toU32 (q.2.stop + embedDataOff ea u)⟩ : Rng)))
        = some ⟨toU32 (pre.length + embedDataOff ea u),
            toU32 (pre.length + (ser q.2).length + embedDataOff ea u)⟩ := h4
    have hts : toU32 (pre.length + embedDataOff ea u) = pre.length + embedDataOff ea u :=
      toU32_lt (by omega)
    have htt : toU32 (pre.length + (ser q.2).length + embedDataOff ea u)
        = pre.length + (ser q.2).length + embedDataOff ea u := toU32_lt (by omega)
    have hstart : pre.length + embedDataOff ea u
        ≤ pre.length + (ser q.2).length + embedDataOff ea u := by omega
    have hstop : pre.length + (ser q.2).length + embedDataOff ea u
        ≤ (embedModule ea u).length := by omega
    have hslice : ((embedModule ea u).drop (pre.length + embedDataOff ea u)).take
        (pre.length + (ser q.2).length + embedDataOff ea u
          - (pre.length + embedDataOff ea u)) = ser q.2 := by
      have hsplit2 : embedModule ea u = (P0 ++ pre) ++ (ser q.2 ++ post) := by
        rw [hP0, hdlen, hblob]
        simp [List.append_assoc]
      rw [hsplit2]
      rw [List.drop_left' (show (P0 ++ pre).length = pre.length + embedDataOff ea u from by
        rw [List.length_append, hP0len]; omega)]
      rw [show pre.length + (ser q.2).length + embedDataOff ea u
          - (pre.length + embedDataOff ea u) = (ser q.2).length from by omega]
      rw [List.take_left]
    have hlbr : loadByRange
        ⟨st.manifest.map fun q => (q.1,
          (⟨toU32 (q.2.start + embedDataOff ea u), toU32 (q.2.stop + embedDataOff ea u)⟩ : Rng)),
         embedModule ea u⟩
        ⟨toU32 (pre.length + embedDataOff ea u),
         toU32 (pre.length + (ser q.2).length + embedDataOff ea u)⟩
        = .ok ⟨ser q.2⟩ := by
      simp only [loadByRange, hts, htt]
      rw [if_pos ⟨hstart, hstop⟩, hslice]
    simp only [load, hlkP, hlbr, WassetItem.deserialize, hround q.2]

set_option maxRecDepth 100000 in
/-- Witness for C1: a one-file folder encoded with the identity codec, embedded
under UUID 5, parses back with exactly one entry that loads to the file's
record. -/
theorem encode_parse_roundtrip_witness :
    ∃ p, WassetParser.parse (embedModule
        ⟨[9, 9], [("assets", AssetHierarchy.node [("b", 0)] [])], manifestSer [(0, ⟨0, 2⟩)]⟩ 5)
      = .ok p ∧
      (p.manifest.map Prod.fst).length
        = (folderRecords (fun (_ : String) (_ : List (String × TomlValue)) (d : List Nat) =>
            (.ok (some d) : Except WassetError (Option (List Nat)))) (fun n => n)
            [] [.file "b" "bin" [9, 9]] 0).length ∧
      ∀ id ∈ p.manifest.map Prod.fst,
        ∃ a, (id, a) ∈ folderRecords (fun (_ : String) (_ : List (String × TomlValue))
              (d : List Nat) => (.ok (some d) : Except WassetError (Option (List Nat))))
            (fun n => n) [] [.file "b" "bin" [9, 9]] 0 ∧
          load (fun l : List Nat => .ok l) p id = .ok (some a) := by
  have hm1 : metaFor [] "b" "bin" = .ok [] := rfl
  have henc : encodeAssetFolder (fun l : List Nat => l) (fun _ _ d => .ok (some d)) (fun n => n)
      "assets" [] [.file "b" "bin" [9, 9]]
      = .ok ⟨[9, 9], [("assets", .node [("b", 0)] [])], manifestSer [(0, ⟨0, 2⟩)]⟩ := by
    unfold encodeAssetFolder
    simp only [walkEntries, hm1, except_bind_ok, List.nil_append]
    simp [toU32, insertA, AssetHierarchy.pushAsset, AssetHierarchy.empty,
      AssetHierarchy.assets, AssetHierarchy.subs]
  have hrec1 : (folderRecords (fun (_ : String) (_ : List (String × TomlValue)) (d : List Nat) =>
        (.ok (some d) : Except WassetError (Option (List Nat)))) (fun n => n)
      [] [.file "b" "bin" [9, 9]] 0).length = 1 := by
    simp [folderRecords, hm1]
  exact encode_parse_roundtrip (fun l : List Nat => l) (fun l => .ok l)
    (fun _ _ d => .ok (some d)) (fun n => n) "assets" [] [.file "b" "bin" [9, 9]]
    ⟨[9, 9], [("assets", .node [("b", 0)] [])], manifestSer [(0, ⟨0, 2⟩)]⟩ 5
    (fun a => rfl) henc
    (by rw [hrec1]; intro i hi j hj _; omega)
    (by rw [hrec1]; intro i hi; simp at hi; subst hi; norm_num)
    (by rw [hrec1]; norm_num)
    (by norm_num)
    (by decide)

end Wasset
